import Mathlib

/-!
Verification of the byte-level BPE tokenizer in `minbpe/basic.py`
(`BasicTokenizer`: `train`, `train_vectorized`, `train_gpu`, `encode`,
`decode`).

Modelling conventions:
* Python byte strings and token-id sequences are `List Nat`.
* Python `dict` is an insertion-ordered association list `List (α × β)`;
  `dictInsert` updates a present key in place (keeping its position, as a
  Python dict does) and appends a fresh key at the end; iteration order of
  the model list is the dict's iteration order.
* Exceptions (`AssertionError` from `assert vocab_size >= 256`,
  `ValueError` from `max`/`argmax` on empty data, `KeyError` from missing
  dict keys) are modelled by `Option`: `none` means the Python call raises.
* `numpy` / `torch` bulk operations are translated position-wise (see the
  comments at `sortedUniqueCounts` and `vecGo`).
-/

namespace RecipeGen

/-- A pair of adjacent token ids, `(left, right)`. -/
abbrev Pair := Nat × Nat

section Dict

variable {α : Type} {β : Type} [DecidableEq α]

/-- Python dict lookup `d[k]` / `d.get(k)`: first (unique) matching key. -/
def dictLookup : List (α × β) → α → Option β
  | [], _ => none
  | (k', v') :: rest, k => if k' = k then some v' else dictLookup rest k

/-- Python dict assignment `d[k] = v`: replace the value of a present key in
place (the key keeps its position in iteration order), append a fresh key. -/
def dictInsert : List (α × β) → α → β → List (α × β)
  | [], k, v => [(k, v)]
  | (k', v') :: rest, k, v =>
    if k' = k then (k, v) :: rest else (k', v') :: dictInsert rest k v

/-- The keys of a dict, in iteration order. -/
def dictKeys (l : List (α × β)) : List α := l.map Prod.fst

end Dict

/-- Modelled from the spec: §4.1 PairStatistics. The repository's
`get_stats` (in `minbpe/base.py`, not under `src/`) builds a Python dict by
scanning `zip(ids, ids[1:])` left to right and doing
`counts[pair] = counts.get(pair, 0) + 1`; the dict's iteration order is
therefore the order of first occurrence of each adjacent pair. -/
def get_stats_go (acc : List (Pair × Nat)) : List Nat → List (Pair × Nat)
  | a :: b :: rest =>
    get_stats_go (dictInsert acc (a, b) ((dictLookup acc (a, b)).getD 0 + 1)) (b :: rest)
  | _ => acc

/-- Modelled from the spec: §4.1 PairStatistics (see `get_stats_go`). -/
def get_stats (ids : List Nat) : List (Pair × Nat) := get_stats_go [] ids

/-- Modelled from the spec: §4.3 MergeApplicator. The repository's `merge`
(in `minbpe/base.py`, not under `src/`) is a single left-to-right greedy
non-overlapping scan: when the current and next element equal the pair, emit
the replacement id and advance by 2, otherwise emit the current element and
advance by 1. -/
def merge : List Nat → Pair → Nat → List Nat
  | [], _, _ => []
  | [a], _, _ => [a]
  | a :: b :: rest, p, idx =>
    if (a, b) = p then idx :: merge rest p idx
    else a :: merge (b :: rest) p idx

/-- Python `max(iterable, key=f)` over the entries of a stats dict, keyed by
the count: returns the first entry (in iteration order) attaining the
maximal count, `none` on an empty dict (Python raises `ValueError`).
`numpy.argmax` / `torch.argmax` also return the first maximal index, so this
same function models the vectorized selection over the sorted unique rows. -/
def firstMax : List (Pair × Nat) → Option (Pair × Nat)
  | [] => none
  | e :: rest =>
    match firstMax rest with
    | none => some e
    | some f => some (if f.2 > e.2 then f else e)

/-- The seed vocabulary `{idx: bytes([idx]) for idx in range(256)}`. -/
def seedVocab : List (Nat × List Nat) := (List.range 256).map (fun i => (i, [i]))

/-- The observable result of training: `self.merges` and `self.vocab`. -/
structure TR where
  merges : List (Pair × Nat)
  vocab : List (Nat × List Nat)
  deriving DecidableEq, Repr

/-- The shared bookkeeping of one accepted merge `(pair -> idx)`:
`merges[pair] = idx; vocab[idx] = vocab[pair[0]] + vocab[pair[1]]`.
`none` models the `KeyError` were a constituent missing from `vocab`. -/
def recordMerge (tr : TR) (p : Pair) (idx : Nat) : Option TR :=
  match dictLookup tr.vocab p.1, dictLookup tr.vocab p.2 with
  | some l, some r =>
    some ⟨dictInsert tr.merges p idx, dictInsert tr.vocab idx (l ++ r)⟩
  | _, _ => none

/-- The loop of `BasicTokenizer.train`: `n` remaining iterations, `i` the
current iteration index. Each iteration counts pairs, takes the first
maximal entry, mints `idx = 256 + i`, rewrites `ids` by the scan `merge`,
and records the merge. -/
def trainLoop : Nat → Nat → List Nat → TR → Option TR
  | 0, _, _, tr => some tr
  | n + 1, i, ids, tr =>
    match firstMax (get_stats ids) with
    | none => none
    | some e =>
      let idx := 256 + i
      match recordMerge tr e.1 idx with
      | none => none
      | some tr' => trainLoop n (i + 1) (merge ids e.1 idx) tr'

/-- `BasicTokenizer.train` on the UTF-8 bytes of the input text. -/
def train (text : List Nat) (vocab_size : Nat) : Option TR :=
  if 256 ≤ vocab_size then trainLoop (vocab_size - 256) 0 text ⟨[], seedVocab⟩
  else none

/-- Strict lexicographic order on pairs, left component first. -/
def lexLt (p q : Pair) : Bool := p.1 < q.1 || (p.1 = q.1 && p.2 < q.2)

/-- One step of building `numpy.unique(pairs, return_counts=True, axis=0)`:
insert one row into the lex-sorted unique-rows-with-counts table. -/
def insSorted : List (Pair × Nat) → Pair → List (Pair × Nat)
  | [], p => [(p, 1)]
  | (q, c) :: rest, p =>
    if p = q then (q, c + 1) :: rest
    else if lexLt p q then (p, 1) :: (q, c) :: rest
    else (q, c) :: insSorted rest p

/-- `numpy.unique(pairs, return_counts=True, axis=0)` (and likewise
`torch.unique(pairs, return_counts=True, dim=0)`): the distinct rows in
ascending lexicographic order, each with its multiplicity. -/
def sortedUniqueCounts (l : List Pair) : List (Pair × Nat) := l.foldl insSorted []

/-- The pair selection of `train_vectorized` / `train_gpu`:
`pairs = stack((ids[:-1], ids[1:]))`, `unique, counts = unique(pairs, ...)`,
`pair = unique[argmax(counts)]`; `argmax` returns the first maximal index
and raises on an empty array (`none`). -/
def vecSelect (ids : List Nat) : Option Pair :=
  (firstMax (sortedUniqueCounts (ids.zip ids.tail))).map Prod.fst

/-- The mask-based removal of `train_vectorized` / `train_gpu`, translated
position-wise. With `mask[i] = (pairs[i] == pair)` for `i < n-1` and an
appended `mask[n-1] = False`: after `ids[mask] = idx`, position `i` holds
`idx` if `mask[i]` else `ids[i]`; `ids[~roll(mask, 1)]` keeps position `i`
iff `mask[i-1]` is false (position `0` is always kept since `roll` wraps the
appended `False` to the front). `prev` carries `mask[i-1]` through the
recursion. -/
def vecGo (p : Pair) (idx : Nat) : Bool → List Nat → List Nat
  | _, [] => []
  | prev, [a] => if prev then [] else [a]
  | prev, a :: b :: rest =>
    let m := (a, b) = p
    (if prev then [] else [if m then idx else a]) ++ vecGo p idx m (b :: rest)

/-- The loop of `BasicTokenizer.train_vectorized`. -/
def trainVecLoop : Nat → Nat → List Nat → TR → Option TR
  | 0, _, _, tr => some tr
  | n + 1, i, ids, tr =>
    match vecSelect ids with
    | none => none
    | some p =>
      let idx := 256 + i
      match recordMerge tr p idx with
      | none => none
      | some tr' => trainVecLoop n (i + 1) (vecGo p idx false ids) tr'

/-- `BasicTokenizer.train_vectorized` on the UTF-8 bytes of the input. -/
def train_vectorized (text : List Nat) (vocab_size : Nat) : Option TR :=
  if 256 ≤ vocab_size then trainVecLoop (vocab_size - 256) 0 text ⟨[], seedVocab⟩
  else none

/-- The loop of `BasicTokenizer.train_gpu`: identical pair selection and
mask removal as `train_vectorized` (`torch.unique`/`torch.argmax` behave as
their numpy counterparts), but it only collects the chosen pairs into
`merge_pairs`; `merges` and `vocab` are assembled after the loop. -/
def gpuLoop : Nat → Nat → List Nat → Option (List Pair)
  | 0, _, _ => some []
  | n + 1, i, ids =>
    match vecSelect ids with
    | none => none
    | some p => (gpuLoop n (i + 1) (vecGo p (256 + i) false ids)).map (p :: ·)

/-- The dict comprehension
`{tuple(pair): j + 256 for j, pair in enumerate(merge_pairs)}`,
generalized over the starting index and an accumulator. -/
def gpuMergesFrom : List (Pair × Nat) → Nat → List Pair → List (Pair × Nat)
  | m, _, [] => m
  | m, i, p :: ps => gpuMergesFrom (dictInsert m p (256 + i)) (i + 1) ps

/-- The vocab-building loop of `train_gpu`:
`vocab[idx] = vocab[pair[0]] + vocab[pair[1]]` for each collected pair in
order; `none` models the `KeyError` were a constituent missing. -/
def gpuVocabFrom : List (Nat × List Nat) → Nat → List Pair → Option (List (Nat × List Nat))
  | v, _, [] => some v
  | v, i, p :: ps =>
    match dictLookup v p.1, dictLookup v p.2 with
    | some l, some r => gpuVocabFrom (dictInsert v (256 + i) (l ++ r)) (i + 1) ps
    | _, _ => none

/-- `BasicTokenizer.train_gpu` on the UTF-8 bytes of the input. -/
def train_gpu (text : List Nat) (vocab_size : Nat) : Option TR :=
  if 256 ≤ vocab_size then
    match gpuLoop (vocab_size - 256) 0 text with
    | none => none
    | some ps =>
      match gpuVocabFrom seedVocab 0 ps with
      | none => none
      | some v => some ⟨gpuMergesFrom [] 0 ps, v⟩
  else none

/-- Strict comparison of merge indices where `none` plays the role of
`float("inf")`: `merges.get(p, float("inf"))`. -/
def ltInf : Option Nat → Option Nat → Bool
  | some a, some b => a < b
  | some _, none => true
  | none, _ => false

/-- Python `min(stats, key=lambda p: merges.get(p, float("inf")))` over the
keys of the stats dict: the first key (in iteration order) attaining the
minimal merge index, missing keys counting as infinity; `none` on an empty
dict (Python raises `ValueError`). -/
def firstMin (merges : List (Pair × Nat)) : List (Pair × Nat) → Option Pair
  | [] => none
  | e :: rest =>
    match firstMin merges rest with
    | none => some e.1
    | some f =>
      some (if ltInf (dictLookup merges f) (dictLookup merges e.1) then f else e.1)

section DictLemmas

variable {α : Type} {β : Type} [DecidableEq α]

theorem dictLookup_insert_self (l : List (α × β)) (k : α) (v : β) :
    dictLookup (dictInsert l k v) k = some v := by
  induction l with
  | nil => simp [dictInsert, dictLookup]
  | cons e rest ih =>
    by_cases h : e.1 = k
    · simp [dictInsert, dictLookup, h]
    · simp [dictInsert, dictLookup, h, ih]

theorem dictLookup_insert_ne (l : List (α × β)) (k k' : α) (v : β) (h : k' ≠ k) :
    dictLookup (dictInsert l k v) k' = dictLookup l k' := by
  have hkk : ¬(k = k') := fun hc => h hc.symm
  induction l with
  | nil => simp [dictInsert, dictLookup, hkk]
  | cons e rest ih =>
    by_cases he : e.1 = k
    · have he' : ¬(e.1 = k') := by rw [he]; exact hkk
      simp [dictInsert, dictLookup, he, he', hkk]
    · simp [dictInsert, dictLookup, he, ih]

theorem mem_dictInsert {l : List (α × β)} {k : α} {v : β} {e : α × β}
    (h : e ∈ dictInsert l k v) : e ∈ l ∨ e = (k, v) := by
  induction l with
  | nil => simpa [dictInsert] using h
  | cons e' rest ih =>
    by_cases he : e'.1 = k
    · rw [dictInsert] at h
      simp only [he, if_pos] at h
      rcases List.mem_cons.1 h with h | h
      · right; exact h
      · left; exact List.mem_cons_of_mem _ h
    · rw [dictInsert] at h
      simp only [he, if_neg, not_false_iff] at h
      rcases List.mem_cons.1 h with h | h
      · left; rw [h]; exact List.mem_cons_self _ _
      · rcases ih h with h | h
        · left; exact List.mem_cons_of_mem _ h
        · right; exact h

theorem dictKeys_insert_of_mem {l : List (α × β)} {k : α} (v : β)
    (h : k ∈ dictKeys l) : dictKeys (dictInsert l k v) = dictKeys l := by
  induction l with
  | nil => simp [dictKeys] at h
  | cons e rest ih =>
    by_cases he : e.1 = k
    · simp [dictInsert, dictKeys, he]
    · rcases List.mem_cons.1 h with h | h
      · exact absurd h.symm he
      · have hr := ih h
        simp only [dictKeys] at hr
        simp [dictInsert, he, dictKeys, hr]

theorem dictInsert_of_not_mem {l : List (α × β)} {k : α} (v : β)
    (h : k ∉ dictKeys l) : dictInsert l k v = l ++ [(k, v)] := by
  induction l with
  | nil => simp [dictInsert]
  | cons e rest ih =>
    have he : e.1 ≠ k := fun hc => h (by simp [dictKeys, hc])
    have hr : k ∉ dictKeys rest := fun hc => h (by simp [dictKeys] at hc ⊢; right; exact hc)
    simp [dictInsert, he, ih hr]

theorem dictLookup_append_left {l l' : List (α × β)} {k : α} {v : β}
    (h : dictLookup l k = some v) : dictLookup (l ++ l') k = some v := by
  induction l with
  | nil => simp [dictLookup] at h
  | cons e rest ih =>
    by_cases he : e.1 = k
    · rw [dictLookup, if_pos he] at h
      simp [dictLookup, he, h]
    · rw [dictLookup, if_neg he] at h
      simp [dictLookup, he, ih h]

theorem dictLookup_append_right {l : List (α × β)} {k : α}
    (h : dictLookup l k = none) (l' : List (α × β)) :
    dictLookup (l ++ l') k = dictLookup l' k := by
  induction l with
  | nil => simp
  | cons e rest ih =>
    by_cases he : e.1 = k
    · rw [dictLookup, if_pos he] at h; exact absurd h (by simp)
    · rw [dictLookup, if_neg he] at h
      simp [dictLookup, he, ih h]

theorem dictLookup_mem {l : List (α × β)} {k : α} {v : β}
    (h : dictLookup l k = some v) : (k, v) ∈ l := by
  induction l with
  | nil => simp [dictLookup] at h
  | cons e rest ih =>
    by_cases he : e.1 = k
    · rw [dictLookup, if_pos he] at h
      obtain ⟨a, b⟩ := e
      simp only [Option.some.injEq] at h
      simp only at he
      subst he
      subst h
      exact List.mem_cons_self _ _
    · rw [dictLookup, if_neg he] at h
      exact List.mem_cons_of_mem _ (ih h)

theorem dictLookup_isSome_of_mem {l : List (α × β)} {k : α}
    (h : k ∈ dictKeys l) : ∃ v, dictLookup l k = some v := by
  induction l with
  | nil => simp [dictKeys] at h
  | cons e rest ih =>
    by_cases he : e.1 = k
    · exact ⟨e.2, by rw [dictLookup, if_pos he]⟩
    · rcases List.mem_cons.1 h with h | h
      · exact absurd h.symm he
      · rcases ih h with ⟨v, hv⟩
        exact ⟨v, by rw [dictLookup, if_neg he]; exact hv⟩

theorem dictLookup_eq_none_of_not_mem {l : List (α × β)} {k : α}
    (h : k ∉ dictKeys l) : dictLookup l k = none := by
  induction l with
  | nil => rfl
  | cons e rest ih =>
    have he : e.1 ≠ k := fun hc => h (by simp [dictKeys, hc])
    have hr : k ∉ dictKeys rest := fun hc => h (by simp [dictKeys] at hc ⊢; right; exact hc)
    rw [dictLookup, if_neg he]; exact ih hr

theorem mem_dictLookup {l : List (α × β)} {k : α} {v : β}
    (hm : (k, v) ∈ l) (hnd : (dictKeys l).Nodup) : dictLookup l k = some v := by
  induction l with
  | nil => simp at hm
  | cons e rest ih =>
    rcases List.mem_cons.1 hm with h | h
    · rw [← h]; simp [dictLookup]
    · have he : e.1 ≠ k := by
        intro hc
        have : k ∈ dictKeys rest := by
          simpa [dictKeys] using List.mem_map_of_mem Prod.fst h
        rw [dictKeys, List.map_cons, List.nodup_cons] at hnd
        exact hnd.1 (hc ▸ this)
      rw [dictLookup, if_neg he]
      exact ih h (by rw [dictKeys, List.map_cons, List.nodup_cons] at hnd; exact hnd.2)

theorem nodup_dictKeys_insert {l : List (α × β)} (k : α) (v : β)
    (h : (dictKeys l).Nodup) : (dictKeys (dictInsert l k v)).Nodup := by
  by_cases hk : k ∈ dictKeys l
  · rw [dictKeys_insert_of_mem v hk]; exact h
  · rw [dictInsert_of_not_mem v hk]
    simp only [dictKeys, List.map_append, List.map_cons, List.map_nil]
    rw [List.nodup_append]
    exact ⟨h, List.nodup_singleton _, by simpa [dictKeys] using hk⟩

theorem dictLookup_inj_of_nodup_values {l : List (α × β)} {a b : α} {v : β}
    (ha : dictLookup l a = some v) (hb : dictLookup l b = some v)
    (hnd : (l.map Prod.snd).Nodup) : a = b := by
  induction l with
  | nil => simp [dictLookup] at ha
  | cons e rest ih =>
    rw [List.map_cons, List.nodup_cons] at hnd
    by_cases hea : e.1 = a
    · rw [dictLookup, if_pos hea] at ha
      have hev : e.2 = v := by simpa using ha
      by_cases heb : e.1 = b
      · rw [← hea, ← heb]
      · rw [dictLookup, if_neg heb] at hb
        have hv : v ∈ rest.map Prod.snd :=
          List.mem_map_of_mem Prod.snd (dictLookup_mem hb)
        exact absurd (by rw [hev]; exact hv) hnd.1
    · rw [dictLookup, if_neg hea] at ha
      by_cases heb : e.1 = b
      · rw [dictLookup, if_pos heb] at hb
        have hev : e.2 = v := by simpa using hb
        have hv : v ∈ rest.map Prod.snd :=
          List.mem_map_of_mem Prod.snd (dictLookup_mem ha)
        exact absurd (by rw [hev]; exact hv) hnd.1
      · rw [dictLookup, if_neg heb] at hb
        exact ih ha hb hnd.2

theorem mem_dictKeys_insert {α β : Type} [DecidableEq α]
    {l : List (α × β)} {k k' : α} {v : β}
    (h : k' ∈ dictKeys (dictInsert l k v)) : k' = k ∨ k' ∈ dictKeys l := by
  simp only [dictKeys, List.mem_map] at h
  rcases h with ⟨e, he, hk⟩
  rcases mem_dictInsert he with h | h
  · right
    simpa [dictKeys, hk] using List.mem_map_of_mem Prod.fst h
  · left
    rw [← hk, h]

theorem mem_dictKeys_insert_self {α β : Type} [DecidableEq α]
    (l : List (α × β)) (k : α) (v : β) : k ∈ dictKeys (dictInsert l k v) := by
  simpa [dictKeys, dictLookup_mem] using
    List.mem_map_of_mem Prod.fst (dictLookup_mem (dictLookup_insert_self l k v))

theorem mem_dictKeys_insert_of_mem {α β : Type} [DecidableEq α]
    {l : List (α × β)} {k' : α} (k : α) (v : β)
    (h : k' ∈ dictKeys l) : k' ∈ dictKeys (dictInsert l k v) := by
  by_cases hk : k ∈ dictKeys l
  · rw [dictKeys_insert_of_mem v hk]; exact h
  · rw [dictInsert_of_not_mem v hk]
    simp only [dictKeys, List.map_append]
    exact List.mem_append_left _ h

end DictLemmas

/-- The dict update performed per scanned pair by `get_stats`:
`counts[pair] = counts.get(pair, 0) + 1`. -/
def bumpDict (acc : List (Pair × Nat)) (p : Pair) : List (Pair × Nat) :=
  dictInsert acc p ((dictLookup acc p).getD 0 + 1)

theorem get_stats_go_eq : ∀ (ids : List Nat) (acc : List (Pair × Nat)),
    get_stats_go acc ids = (ids.zip ids.tail).foldl bumpDict acc := by
  intro ids
  induction ids with
  | nil => intro acc; rfl
  | cons a t ih =>
    intro acc
    cases t with
    | nil => rfl
    | cons b rest =>
      rw [get_stats_go, ih]
      rfl

theorem get_stats_eq (ids : List Nat) :
    get_stats ids = (ids.zip ids.tail).foldl bumpDict [] :=
  get_stats_go_eq ids []

theorem foldl_bumpDict_mem : ∀ (L : List Pair) (acc : List (Pair × Nat)) (p : Pair) (c : Nat),
    (p, c) ∈ L.foldl bumpDict acc → (∃ c', (p, c') ∈ acc) ∨ p ∈ L := by
  intro L
  induction L with
  | nil => intro acc p c h; exact Or.inl ⟨c, h⟩
  | cons q L' ih =>
    intro acc p c h
    rcases ih (bumpDict acc q) p c h with ⟨c', hc'⟩ | h
    · rcases mem_dictInsert hc' with h | h
      · exact Or.inl ⟨c', h⟩
      · right
        rw [show p = q from congrArg Prod.fst h]
        exact List.mem_cons_self _ _
    · exact Or.inr (List.mem_cons_of_mem _ h)

theorem foldl_bumpDict_key_persist : ∀ (L : List Pair) (acc : List (Pair × Nat)) (p : Pair),
    p ∈ dictKeys acc → p ∈ dictKeys (L.foldl bumpDict acc) := by
  intro L
  induction L with
  | nil => intro acc p h; exact h
  | cons q L' ih =>
    intro acc p h
    exact ih (bumpDict acc q) p (mem_dictKeys_insert_of_mem _ _ h)

theorem foldl_bumpDict_key : ∀ (L : List Pair) (acc : List (Pair × Nat)) (p : Pair),
    p ∈ L → p ∈ dictKeys (L.foldl bumpDict acc) := by
  intro L
  induction L with
  | nil => intro acc p h; simp at h
  | cons q L' ih =>
    intro acc p h
    rcases List.mem_cons.1 h with h | h
    · subst h
      exact foldl_bumpDict_key_persist L' (bumpDict acc p) p (mem_dictKeys_insert_self _ _ _)
    · exact ih (bumpDict acc q) p h

theorem foldl_bumpDict_count : ∀ (L : List Pair) (acc : List (Pair × Nat)) (p : Pair),
    (dictLookup (L.foldl bumpDict acc) p).getD 0 = (dictLookup acc p).getD 0 + L.count p := by
  intro L
  induction L with
  | nil => intro acc p; simp
  | cons q L' ih =>
    intro acc p
    rw [List.foldl_cons, ih]
    by_cases h : p = q
    · subst h
      rw [show (dictLookup (bumpDict acc p) p).getD 0 = (dictLookup acc p).getD 0 + 1 by
        rw [bumpDict, dictLookup_insert_self]; rfl]
      rw [List.count_cons_self]
      omega
    · rw [show dictLookup (bumpDict acc q) p = dictLookup acc p from
        dictLookup_insert_ne _ _ _ _ h]
      rw [List.count_cons_of_ne h]

theorem foldl_bumpDict_nodup : ∀ (L : List Pair) (acc : List (Pair × Nat)),
    (dictKeys acc).Nodup → (dictKeys (L.foldl bumpDict acc)).Nodup := by
  intro L
  induction L with
  | nil => intro acc h; exact h
  | cons q L' ih => intro acc h; exact ih _ (nodup_dictKeys_insert _ _ h)

theorem get_stats_key_mem {ids : List Nat} {p : Pair} {c : Nat}
    (h : (p, c) ∈ get_stats ids) : p ∈ ids.zip ids.tail := by
  rw [get_stats_eq] at h
  rcases foldl_bumpDict_mem _ [] p c h with ⟨c', hc'⟩ | h
  · simp at hc'
  · exact h

theorem get_stats_mem_key {ids : List Nat} {p : Pair}
    (h : p ∈ ids.zip ids.tail) : p ∈ dictKeys (get_stats ids) := by
  rw [get_stats_eq]
  exact foldl_bumpDict_key _ [] p h

theorem get_stats_count (ids : List Nat) (p : Pair) :
    (dictLookup (get_stats ids) p).getD 0 = (ids.zip ids.tail).count p := by
  rw [get_stats_eq, foldl_bumpDict_count]
  simp [dictLookup]

theorem get_stats_nodup (ids : List Nat) : (dictKeys (get_stats ids)).Nodup := by
  rw [get_stats_eq]
  exact foldl_bumpDict_nodup _ [] (by simp [dictKeys])

theorem get_stats_entry_count {ids : List Nat} {p : Pair} {c : Nat}
    (h : (p, c) ∈ get_stats ids) : c = (ids.zip ids.tail).count p := by
  have := mem_dictLookup h (get_stats_nodup ids)
  have h2 := get_stats_count ids p
  rw [this] at h2
  simpa using h2

theorem get_stats_ne_nil {ids : List Nat} (h : 2 ≤ ids.length) :
    get_stats ids ≠ [] := by
  match ids with
  | a :: b :: rest =>
    intro hc
    have : (a, b) ∈ dictKeys (get_stats (a :: b :: rest)) :=
      get_stats_mem_key (by simp)
    rw [hc] at this
    simp [dictKeys] at this

theorem merge_length_le (ids : List Nat) (p : Pair) (idx : Nat) :
    (merge ids p idx).length ≤ ids.length := by
  match ids with
  | [] => simp [merge]
  | [a] => simp [merge]
  | a :: b :: rest =>
    rw [merge]
    by_cases h : (a, b) = p
    · have := merge_length_le rest p idx
      simp only [if_pos h, List.length_cons]
      omega
    · have := merge_length_le (b :: rest) p idx
      simp only [if_neg h, List.length_cons]
      simp only [List.length_cons] at this
      omega

theorem merge_length_lt (ids : List Nat) (p : Pair) (idx : Nat)
    (h : p ∈ ids.zip ids.tail) : (merge ids p idx).length < ids.length := by
  match ids with
  | [] => simp at h
  | [a] => simp at h
  | a :: b :: rest =>
    rw [merge]
    by_cases hm : (a, b) = p
    · have := merge_length_le rest p idx
      simp only [if_pos hm, List.length_cons]
      omega
    · have hz : p ∈ (b :: rest).zip rest := by
        simp only [List.tail_cons, List.zip_cons_cons, List.mem_cons] at h
        rcases h with h | h
        · exact absurd h.symm hm
        · exact h
      have := merge_length_lt (b :: rest) p idx hz
      simp only [if_neg hm, List.length_cons]
      simp only [List.length_cons] at this
      omega

theorem merge_pos (ids : List Nat) (p : Pair) (idx : Nat) (h : ids ≠ []) :
    1 ≤ (merge ids p idx).length := by
  match ids with
  | [] => exact absurd rfl h
  | [a] => simp [merge]
  | a :: b :: rest =>
    rw [merge]
    by_cases hm : (a, b) = p <;> simp [hm]

theorem firstMax_eq_none {l : List (Pair × Nat)} (h : firstMax l = none) : l = [] := by
  cases l with
  | nil => rfl
  | cons e rest =>
    rw [firstMax] at h
    rcases hr : firstMax rest with _ | f <;> rw [hr] at h <;> simp at h

/-- `firstMax` returns a member entry of maximal count, and every entry
strictly before it in the list has a strictly smaller count. -/
theorem firstMax_spec : ∀ {l : List (Pair × Nat)} {e : Pair × Nat},
    firstMax l = some e →
    e ∈ l ∧ (∀ f ∈ l, f.2 ≤ e.2) ∧
      ∃ l1 l2, l = l1 ++ e :: l2 ∧ ∀ f ∈ l1, f.2 < e.2 := by
  intro l
  induction l with
  | nil => intro e h; simp [firstMax] at h
  | cons a rest ih =>
    intro e h
    rw [firstMax] at h
    match hr : firstMax rest with
    | none =>
      rw [hr] at h
      have : rest = [] := firstMax_eq_none hr
      subst this
      simp only [Option.some.injEq] at h
      subst h
      exact ⟨List.mem_cons_self _ _, by simp, [], [], rfl, by simp⟩
    | some f =>
      rw [hr] at h
      simp only [Option.some.injEq] at h
      obtain ⟨hfm, hfb, l1, l2, hdec, hpre⟩ := ih hr
      by_cases hgt : f.2 > a.2
      · rw [if_pos hgt] at h
        subst h
        refine ⟨List.mem_cons_of_mem _ hfm, ?_, a :: l1, l2, by rw [hdec]; rfl, ?_⟩
        · intro g hg
          rcases List.mem_cons.1 hg with hg | hg
          · subst hg; omega
          · exact hfb g hg
        · intro g hg
          rcases List.mem_cons.1 hg with hg | hg
          · subst hg; omega
          · exact hpre g hg
      · rw [if_neg hgt] at h
        subst h
        refine ⟨List.mem_cons_self _ _, ?_, [], rest, rfl, by simp⟩
        intro g hg
        rcases List.mem_cons.1 hg with hg | hg
        · subst hg; omega
        · have := hfb g hg
          omega

theorem ltInf_irrefl (x : Option Nat) : ltInf x x = false := by
  cases x <;> simp [ltInf]

theorem ltInf_asymm : ∀ {x y : Option Nat}, ltInf x y = true → ltInf y x = false := by
  intro x y h
  cases x <;> cases y <;> simp [ltInf] at h ⊢ <;> omega

theorem ltInf_neg_trans : ∀ {x y z : Option Nat},
    ltInf x y = false → ltInf y z = false → ltInf x z = false := by
  intro x y z hxy hyz
  cases x <;> cases y <;> cases z <;> simp [ltInf] at hxy hyz ⊢ <;> omega

theorem firstMin_eq_none {merges : List (Pair × Nat)} {l : List (Pair × Nat)}
    (h : firstMin merges l = none) : l = [] := by
  cases l with
  | nil => rfl
  | cons e rest =>
    rw [firstMin] at h
    rcases hr : firstMin merges rest with _ | f <;> rw [hr] at h <;> simp at h

/-- `firstMin` returns a key of the stats dict whose merge index (with
`none` playing infinity) is minimal among all keys. -/
theorem firstMin_spec (merges : List (Pair × Nat)) :
    ∀ {l : List (Pair × Nat)} {q : Pair}, firstMin merges l = some q →
    (∃ c, (q, c) ∈ l) ∧
      ∀ e ∈ l, ltInf (dictLookup merges e.1) (dictLookup merges q) = false := by
  intro l
  induction l with
  | nil => intro q h; simp [firstMin] at h
  | cons a rest ih =>
    intro q h
    rw [firstMin] at h
    match hr : firstMin merges rest with
    | none =>
      rw [hr] at h
      have : rest = [] := firstMin_eq_none hr
      subst this
      simp only [Option.some.injEq] at h
      subst h
      refine ⟨⟨a.2, by simp⟩, ?_⟩
      intro e he
      rcases List.mem_cons.1 he with he | he
      · rw [he]
        exact ltInf_irrefl _
      · simp at he
    | some f =>
      rw [hr] at h
      simp only [Option.some.injEq] at h
      obtain ⟨⟨cf, hfm⟩, hfb⟩ := ih hr
      by_cases hlt : ltInf (dictLookup merges f) (dictLookup merges a.1) = true
      · rw [if_pos hlt] at h
        subst h
        refine ⟨⟨cf, List.mem_cons_of_mem _ hfm⟩, ?_⟩
        intro e he
        rcases List.mem_cons.1 he with he | he
        · rw [he]; exact ltInf_asymm hlt
        · exact hfb e he
      · rw [if_neg hlt] at h
        subst h
        refine ⟨⟨a.2, by simp⟩, ?_⟩
        intro e he
        rcases List.mem_cons.1 he with he | he
        · rw [he]
          exact ltInf_irrefl _
        · exact ltInf_neg_trans (hfb e he) (Bool.eq_false_iff.2 hlt)

theorem lexLt_iff (p q : Pair) :
    lexLt p q = true ↔ p.1 < q.1 ∨ (p.1 = q.1 ∧ p.2 < q.2) := by
  simp [lexLt]

theorem lexLt_trans {p q r : Pair} (h1 : lexLt p q = true) (h2 : lexLt q r = true) :
    lexLt p r = true := by
  rw [lexLt_iff] at h1 h2 ⊢
  omega

theorem lexLt_ne {p q : Pair} (h : lexLt p q = true) : p ≠ q := by
  rw [lexLt_iff] at h
  intro hc
  subst hc
  omega

theorem lexLt_total {p q : Pair} (h : p ≠ q) : lexLt p q = true ∨ lexLt q p = true := by
  rcases p with ⟨p1, p2⟩
  rcases q with ⟨q1, q2⟩
  rw [lexLt_iff, lexLt_iff]
  have h' : ¬(p1 = q1 ∧ p2 = q2) := fun hc => h (by rw [hc.1, hc.2])
  dsimp only
  omega

/-- Entries ordered by strictly increasing lexicographic key: the shape of
the `numpy.unique(..., axis=0)` output. -/
def EntryLex (e f : Pair × Nat) : Prop := lexLt e.1 f.1 = true

theorem mem_insSorted : ∀ {l : List (Pair × Nat)} {p : Pair} {e : Pair × Nat},
    e ∈ insSorted l p → e ∈ l ∨ e.1 = p := by
  intro l
  induction l with
  | nil =>
    intro p e h
    simp [insSorted] at h
    exact Or.inr (by rw [h])
  | cons f rest ih =>
    intro p e h
    obtain ⟨q, c⟩ := f
    rw [insSorted] at h
    by_cases h1 : p = q
    · rw [if_pos h1] at h
      rcases List.mem_cons.1 h with h | h
      · exact Or.inr (by rw [h, h1])
      · exact Or.inl (List.mem_cons_of_mem _ h)
    · rw [if_neg h1] at h
      by_cases h2 : lexLt p q = true
      · rw [if_pos h2] at h
        rcases List.mem_cons.1 h with h | h
        · exact Or.inr (by rw [h])
        · exact Or.inl h
      · rw [if_neg h2] at h
        rcases List.mem_cons.1 h with h | h
        · exact Or.inl (by rw [h]; exact List.mem_cons_self _ _)
        · rcases ih h with h | h
          · exact Or.inl (List.mem_cons_of_mem _ h)
          · exact Or.inr h

theorem key_mem_insSorted_self : ∀ (l : List (Pair × Nat)) (p : Pair),
    p ∈ dictKeys (insSorted l p) := by
  intro l
  induction l with
  | nil => intro p; simp [insSorted, dictKeys]
  | cons f rest ih =>
    intro p
    obtain ⟨q, c⟩ := f
    rw [insSorted]
    by_cases h1 : p = q
    · rw [if_pos h1]; simp [dictKeys, h1]
    · rw [if_neg h1]
      by_cases h2 : lexLt p q = true
      · rw [if_pos h2]; simp [dictKeys]
      · rw [if_neg h2]
        simp only [dictKeys, List.map_cons, List.mem_cons]
        exact Or.inr (ih p)

theorem key_mem_insSorted_of_mem : ∀ {l : List (Pair × Nat)} {q : Pair} (p : Pair),
    q ∈ dictKeys l → q ∈ dictKeys (insSorted l p) := by
  intro l
  induction l with
  | nil => intro q p h; simp [dictKeys] at h
  | cons f rest ih =>
    intro q p h
    obtain ⟨k, c⟩ := f
    rw [insSorted]
    simp only [dictKeys, List.map_cons, List.mem_cons] at h
    by_cases h1 : p = k
    · rw [if_pos h1]
      simp only [dictKeys, List.map_cons, List.mem_cons]
      rcases h with h | h
      · exact Or.inl h
      · exact Or.inr h
    · rw [if_neg h1]
      by_cases h2 : lexLt p k = true
      · rw [if_pos h2]
        simp only [dictKeys, List.map_cons, List.mem_cons]
        tauto
      · rw [if_neg h2]
        simp only [dictKeys, List.map_cons, List.mem_cons]
        rcases h with h | h
        · exact Or.inl h
        · exact Or.inr (ih p h)

theorem insSorted_pairwise : ∀ {l : List (Pair × Nat)} (p : Pair),
    l.Pairwise EntryLex → (insSorted l p).Pairwise EntryLex := by
  intro l
  induction l with
  | nil => intro p _; simp [insSorted]
  | cons f rest ih =>
    intro p hs
    obtain ⟨q, c⟩ := f
    rw [List.pairwise_cons] at hs
    rw [insSorted]
    by_cases h1 : p = q
    · rw [if_pos h1]
      rw [List.pairwise_cons]
      exact ⟨hs.1, hs.2⟩
    · rw [if_neg h1]
      by_cases h2 : lexLt p q = true
      · rw [if_pos h2]
        rw [List.pairwise_cons]
        constructor
        · intro e he
          rcases List.mem_cons.1 he with he | he
          · rw [he]; exact h2
          · exact lexLt_trans h2 (hs.1 e he)
        · rw [List.pairwise_cons]
          exact ⟨hs.1, hs.2⟩
      · rw [if_neg h2]
        rw [List.pairwise_cons]
        constructor
        · intro e he
          rcases mem_insSorted he with he | he
          · exact hs.1 e he
          · rcases lexLt_total h1 with h | h
            · exact absurd h h2
            · rw [EntryLex, he]; exact h
        · exact ih p hs.2

theorem lookup_none_of_all_lexLt {l : List (Pair × Nat)} {p : Pair}
    (h : ∀ r ∈ dictKeys l, lexLt p r = true) : dictLookup l p = none := by
  apply dictLookup_eq_none_of_not_mem
  intro hm
  exact absurd rfl (lexLt_ne (h p hm))

theorem insSorted_count : ∀ {l : List (Pair × Nat)} (p q : Pair),
    l.Pairwise EntryLex →
    (dictLookup (insSorted l p) q).getD 0 =
      (dictLookup l q).getD 0 + (if q = p then 1 else 0) := by
  intro l
  induction l with
  | nil =>
    intro p q _
    by_cases h : q = p
    · simp [insSorted, dictLookup, h]
    · have h' : ¬(p = q) := fun hc => h hc.symm
      simp [insSorted, dictLookup, h, h']
  | cons f rest ih =>
    intro p q hs
    obtain ⟨k, c⟩ := f
    rw [List.pairwise_cons] at hs
    rw [insSorted]
    by_cases h1 : p = k
    · rw [if_pos h1]
      by_cases hq : q = p
      · subst hq; subst h1
        simp [dictLookup]
      · have hqk : ¬(k = q) := fun hc => hq (by rw [← hc, h1])
        simp [dictLookup, hqk, hq]
    · rw [if_neg h1]
      by_cases h2 : lexLt p k = true
      · rw [if_pos h2]
        by_cases hq : q = p
        · subst hq
          have hnone : dictLookup ((k, c) :: rest) q = none := by
            apply lookup_none_of_all_lexLt
            intro r hr
            simp only [dictKeys, List.map_cons, List.mem_cons] at hr
            rcases hr with hr | hr
            · rw [hr]; exact h2
            · simp only [dictKeys, List.mem_map] at hr
              rcases hr with ⟨e, he, hek⟩
              exact lexLt_trans h2 (by rw [← hek]; exact hs.1 e he)
          rw [hnone]
          simp [dictLookup]
        · have : ¬(p = q) := fun hc => hq hc.symm
          simp [dictLookup, this, hq]
      · rw [if_neg h2]
        by_cases hqk : k = q
        · have hq : ¬(q = p) := fun hc => h1 (hc ▸ hqk).symm
          simp [dictLookup, hqk, hq]
        · simp only [dictLookup, if_neg hqk]
          exact ih p q hs.2

theorem foldl_insSorted_pairwise : ∀ (L : List Pair) (l : List (Pair × Nat)),
    l.Pairwise EntryLex → (L.foldl insSorted l).Pairwise EntryLex := by
  intro L
  induction L with
  | nil => intro l h; exact h
  | cons p L' ih => intro l h; exact ih _ (insSorted_pairwise p h)

theorem foldl_insSorted_count : ∀ (L : List Pair) (l : List (Pair × Nat)) (q : Pair),
    l.Pairwise EntryLex →
    (dictLookup (L.foldl insSorted l) q).getD 0 = (dictLookup l q).getD 0 + L.count q := by
  intro L
  induction L with
  | nil => intro l q _; simp
  | cons p L' ih =>
    intro l q hs
    rw [List.foldl_cons, ih _ q (insSorted_pairwise p hs), insSorted_count p q hs]
    by_cases h : q = p
    · subst h
      rw [List.count_cons_self, if_pos rfl]
      omega
    · rw [List.count_cons_of_ne h, if_neg h]
      omega

theorem foldl_insSorted_mem : ∀ (L : List Pair) (l : List (Pair × Nat)) {q : Pair} {c : Nat},
    (q, c) ∈ L.foldl insSorted l → (∃ c', (q, c') ∈ l) ∨ q ∈ L := by
  intro L
  induction L with
  | nil => intro l q c h; exact Or.inl ⟨c, h⟩
  | cons p L' ih =>
    intro l q c h
    rcases ih (insSorted l p) h with ⟨c', hc'⟩ | h
    · rcases mem_insSorted hc' with h | h
      · exact Or.inl ⟨c', h⟩
      · right
        rw [show q = p from h]
        exact List.mem_cons_self _ _
    · exact Or.inr (List.mem_cons_of_mem _ h)

theorem foldl_insSorted_key_persist : ∀ (L : List Pair) (l : List (Pair × Nat)) {q : Pair},
    q ∈ dictKeys l → q ∈ dictKeys (L.foldl insSorted l) := by
  intro L
  induction L with
  | nil => intro l q h; exact h
  | cons p L' ih => intro l q h; exact ih _ (key_mem_insSorted_of_mem p h)

theorem foldl_insSorted_key : ∀ (L : List Pair) (l : List (Pair × Nat)) {q : Pair},
    q ∈ L → q ∈ dictKeys (L.foldl insSorted l) := by
  intro L
  induction L with
  | nil => intro l q h; simp at h
  | cons p L' ih =>
    intro l q h
    rcases List.mem_cons.1 h with h | h
    · subst h
      exact foldl_insSorted_key_persist L' _ (key_mem_insSorted_self l q)
    · exact ih (insSorted l p) h

theorem suc_pairwise (L : List Pair) : (sortedUniqueCounts L).Pairwise EntryLex :=
  foldl_insSorted_pairwise L [] (by simp)

theorem suc_nodup_keys (L : List Pair) : (dictKeys (sortedUniqueCounts L)).Nodup := by
  show List.Pairwise (fun a b => a ≠ b) (List.map Prod.fst (sortedUniqueCounts L))
  rw [List.pairwise_map]
  exact (suc_pairwise L).imp fun hef => lexLt_ne hef

theorem suc_count (L : List Pair) (q : Pair) :
    (dictLookup (sortedUniqueCounts L) q).getD 0 = L.count q := by
  rw [sortedUniqueCounts, foldl_insSorted_count L [] q (by simp)]
  simp [dictLookup]

theorem suc_entry_count {L : List Pair} {q : Pair} {c : Nat}
    (h : (q, c) ∈ sortedUniqueCounts L) : c = L.count q := by
  have hl := mem_dictLookup h (suc_nodup_keys L)
  have h2 := suc_count L q
  rw [hl] at h2
  simpa using h2

theorem suc_entry_mem {L : List Pair} {q : Pair} {c : Nat}
    (h : (q, c) ∈ sortedUniqueCounts L) : q ∈ L := by
  rcases foldl_insSorted_mem L [] h with ⟨c', hc'⟩ | h
  · simp at hc'
  · exact h

theorem suc_key_mem {L : List Pair} {q : Pair} (h : q ∈ L) :
    q ∈ dictKeys (sortedUniqueCounts L) :=
  foldl_insSorted_key L [] h

/-- The vectorized selection picks an adjacent pair of maximal count, and
among the maximal-count pairs the lexicographically smallest one: `unique`
returns rows in ascending lexicographic order and `argmax` returns the
first maximal index. -/
theorem vecSelect_spec {ids : List Nat} {p : Pair} (h : vecSelect ids = some p) :
    p ∈ ids.zip ids.tail ∧
      ∀ q ∈ ids.zip ids.tail,
        (ids.zip ids.tail).count q ≤ (ids.zip ids.tail).count p ∧
          ((ids.zip ids.tail).count q = (ids.zip ids.tail).count p →
            p = q ∨ lexLt p q = true) := by
  rw [vecSelect] at h
  rcases hfm : firstMax (sortedUniqueCounts (ids.zip ids.tail)) with _ | e
  · rw [hfm] at h; simp at h
  · rw [hfm] at h
    obtain ⟨q', c⟩ := e
    simp only [Option.map_some', Option.some.injEq] at h
    subst h
    obtain ⟨hmem, hbound, l1, l2, hdec, hpre⟩ := firstMax_spec hfm
    have hc : c = (ids.zip ids.tail).count q' := suc_entry_count hmem
    refine ⟨suc_entry_mem hmem, ?_⟩
    intro q hq
    have hqk := suc_key_mem hq
    rcases dictLookup_isSome_of_mem hqk with ⟨cq, hcq⟩
    have hqe : (q, cq) ∈ sortedUniqueCounts (ids.zip ids.tail) := dictLookup_mem hcq
    have hcq2 : cq = (ids.zip ids.tail).count q := suc_entry_count hqe
    have hle : cq ≤ c := hbound (q, cq) hqe
    constructor
    · omega
    · intro heq
      have hceq : cq = c := by omega
      rw [hdec] at hqe
      rcases List.mem_append.1 hqe with hm | hm
      · have := hpre (q, cq) hm
        simp only at this
        omega
      · rcases List.mem_cons.1 hm with hm | hm
        · left
          exact (congrArg Prod.fst hm).symm
        · right
          have hpw := suc_pairwise (ids.zip ids.tail)
          rw [hdec] at hpw
          have h2 := (List.pairwise_append.1 hpw).2.1
          rw [List.pairwise_cons] at h2
          exact h2.1 (q, cq) hm

/-- The selection of `train` (`max(stats, key=stats.get)`) picks an adjacent
pair of maximal count (the first maximal entry in first-occurrence order;
no lexicographic tie-break). -/
theorem trainSelect_spec {ids : List Nat} {e : Pair × Nat}
    (h : firstMax (get_stats ids) = some e) :
    e.1 ∈ ids.zip ids.tail ∧
      ∀ q ∈ ids.zip ids.tail,
        (ids.zip ids.tail).count q ≤ (ids.zip ids.tail).count e.1 := by
  obtain ⟨hmem, hbound, _⟩ := firstMax_spec h
  obtain ⟨p, c⟩ := e
  simp only at hmem hbound ⊢
  have hc : c = (ids.zip ids.tail).count p := get_stats_entry_count hmem
  refine ⟨get_stats_key_mem hmem, ?_⟩
  intro q hq
  have hqk := get_stats_mem_key hq
  rcases dictLookup_isSome_of_mem hqk with ⟨cq, hcq⟩
  have hqe : (q, cq) ∈ get_stats ids := dictLookup_mem hcq
  have hcq2 : cq = (ids.zip ids.tail).count q := get_stats_entry_count hqe
  have hle : cq ≤ c := hbound (q, cq) hqe
  omega

/-- The loop of `BasicTokenizer.encode` after the initial text-to-bytes
conversion: while at least two tokens remain, pick
`min(stats, key=lambda p: merges.get(p, inf))`; if the picked pair is not a
merge key, break; else rewrite with the scan `merge` and repeat. The
`firstMin = none` branch models `min` over an empty stats dict, which is
unreachable while `len(ids) >= 2`. -/
def encode (merges : List (Pair × Nat)) (ids : List Nat) : List Nat :=
  if h2 : 2 ≤ ids.length then
    match hsel : firstMin merges (get_stats ids) with
    | none => ids
    | some p =>
      match dictLookup merges p with
      | none => ids
      | some idx => encode merges (merge ids p idx)
  else ids
termination_by ids.length
decreasing_by
  rcases (firstMin_spec merges hsel).1 with ⟨c, hc⟩
  exact merge_length_lt ids p idx (get_stats_key_mem hc)

/-- A fuel-indexed version of the `encode` loop: at most `n` iterations.
Used to state that the loop terminates within `length ids` iterations. -/
def encodeFuel (merges : List (Pair × Nat)) : Nat → List Nat → List Nat
  | 0, ids => ids
  | n + 1, ids =>
    if 2 ≤ ids.length then
      match firstMin merges (get_stats ids) with
      | none => ids
      | some p =>
        match dictLookup merges p with
        | none => ids
        | some idx => encodeFuel merges n (merge ids p idx)
    else ids

/-- `b"".join(self.vocab[idx] for idx in ids)`: `none` models the `KeyError`
raised on the first id absent from the vocabulary. -/
def decodeBytes (vocab : List (Nat × List Nat)) : List Nat → Option (List Nat)
  | [] => some []
  | i :: rest =>
    match dictLookup vocab i, decodeBytes vocab rest with
    | some bs, some tl => some (bs ++ tl)
    | _, _ => none

/-- A Unicode scalar value: what a Python `str` character that
`str.encode("utf-8")` accepts may hold (surrogates excluded). -/
def isScalar (v : Nat) : Prop := v < 0x110000 ∧ (v < 0xD800 ∨ 0xE000 ≤ v)

instance (v : Nat) : Decidable (isScalar v) := by
  unfold isScalar
  infer_instance

/-- Modelled from the spec: the UTF-8 encoding used by `text.encode("utf-8")`
(Python standard library, not repository code), one character at a time. -/
def utf8EncodeChar (v : Nat) : List Nat :=
  if v < 0x80 then [v]
  else if v < 0x800 then [0xC0 + v / 64, 0x80 + v % 64]
  else if v < 0x10000 then [0xE0 + v / 4096, 0x80 + v / 64 % 64, 0x80 + v % 64]
  else [0xF0 + v / 262144, 0x80 + v / 4096 % 64, 0x80 + v / 64 % 64, 0x80 + v % 64]

/-- `text.encode("utf-8")` over a text given as its scalar values. -/
def utf8Encode (s : List Nat) : List Nat := (s.map utf8EncodeChar).flatten

/-- Decode one UTF-8 sequence from the front: the scalar value and the
remaining bytes, or `none` if the head is not a complete valid sequence
(overlong forms, surrogates and values above `0x10FFFF` rejected). -/
def utf8DecodeOne : List Nat → Option (Nat × List Nat)
  | [] => none
  | b :: rest =>
    if b < 0x80 then some (b, rest)
    else if 0xC2 ≤ b ∧ b ≤ 0xDF then
      match rest with
      | b1 :: rest1 =>
        if 0x80 ≤ b1 ∧ b1 < 0xC0 then some ((b - 0xC0) * 64 + (b1 - 0x80), rest1)
        else none
      | [] => none
    else if 0xE0 ≤ b ∧ b ≤ 0xEF then
      match rest with
      | b1 :: b2 :: rest2 =>
        if (0x80 ≤ b1 ∧ b1 < 0xC0) ∧ (0x80 ≤ b2 ∧ b2 < 0xC0) ∧
            (b = 0xE0 → 0xA0 ≤ b1) ∧ (b = 0xED → b1 < 0xA0) then
          some ((b - 0xE0) * 4096 + (b1 - 0x80) * 64 + (b2 - 0x80), rest2)
        else none
      | _ => none
    else if 0xF0 ≤ b ∧ b ≤ 0xF4 then
      match rest with
      | b1 :: b2 :: b3 :: rest3 =>
        if (0x80 ≤ b1 ∧ b1 < 0xC0) ∧ (0x80 ≤ b2 ∧ b2 < 0xC0) ∧
            (0x80 ≤ b3 ∧ b3 < 0xC0) ∧
            (b = 0xF0 → 0x90 ≤ b1) ∧ (b = 0xF4 → b1 < 0x90) then
          some ((b - 0xF0) * 262144 + (b1 - 0x80) * 4096 + (b2 - 0x80) * 64
            + (b3 - 0x80), rest3)
        else none
      | _ => none
    else none

theorem utf8DecodeOne_length : ∀ {bs : List Nat} {c : Nat} {rest : List Nat},
    utf8DecodeOne bs = some (c, rest) → rest.length < bs.length := by
  intro bs c rest h
  match bs with
  | [] => simp [utf8DecodeOne] at h
  | b :: r =>
    simp only [utf8DecodeOne] at h
    repeat' split at h
    all_goals simp_all
    all_goals omega

/-- Modelled from the spec: the maximal-subpart length skipped per
replacement by `bytes.decode("utf-8", errors="replace")` when the head of
`bs` is not a valid sequence: the longest prefix that is a prefix of some
valid UTF-8 sequence, at least one byte. -/
def invalidLen : List Nat → Nat
  | [] => 1
  | b :: rest =>
    if 0xE0 ≤ b ∧ b ≤ 0xEF then
      match rest with
      | b1 :: _ =>
        if (0x80 ≤ b1 ∧ b1 < 0xC0) ∧ (b = 0xE0 → 0xA0 ≤ b1) ∧ (b = 0xED → b1 < 0xA0)
        then 2 else 1
      | [] => 1
    else if 0xF0 ≤ b ∧ b ≤ 0xF4 then
      match rest with
      | b1 :: rest1 =>
        if (0x80 ≤ b1 ∧ b1 < 0xC0) ∧ (b = 0xF0 → 0x90 ≤ b1) ∧ (b = 0xF4 → b1 < 0x90) then
          match rest1 with
          | b2 :: _ => if 0x80 ≤ b2 ∧ b2 < 0xC0 then 3 else 2
          | [] => 2
        else 1
      | [] => 1
    else 1

theorem invalidLen_pos (bs : List Nat) : 1 ≤ invalidLen bs := by
  match bs with
  | [] => simp [invalidLen]
  | b :: rest =>
    simp only [invalidLen]
    repeat' split
    all_goals omega

/-- Modelled from the spec: strict UTF-8 decoding; `some` exactly on valid
UTF-8 byte strings. Used to state what "valid UTF-8" means. -/
def utf8DecodeStrict (bs : List Nat) : Option (List Nat) :=
  match h : utf8DecodeOne bs with
  | some (c, rest) => (utf8DecodeStrict rest).map (c :: ·)
  | none => if bs = [] then some [] else none
termination_by bs.length
decreasing_by exact utf8DecodeOne_length h

/-- Modelled from the spec: `bytes.decode("utf-8", errors="replace")`
(Python standard library, not repository code): decode sequences from the
front; on an invalid head emit U+FFFD, skip its maximal subpart, and
continue. Total: it never fails. -/
def utf8DecodeReplace (bs : List Nat) : List Nat :=
  match h : utf8DecodeOne bs with
  | some (c, rest) => c :: utf8DecodeReplace rest
  | none =>
    match bs with
    | [] => []
    | b :: rest => 0xFFFD :: utf8DecodeReplace ((b :: rest).drop (invalidLen (b :: rest)))
termination_by bs.length
decreasing_by
  · exact utf8DecodeOne_length h
  · have := invalidLen_pos (b :: rest)
    simp only [List.length_drop, List.length_cons]
    omega

/-- `BasicTokenizer.decode`: vocabulary lookup and byte concatenation
(`KeyError`, i.e. `none`, on a missing id), then
`bytes.decode("utf-8", errors="replace")`. -/
def decode (vocab : List (Nat × List Nat)) (ids : List Nat) : Option (List Nat) :=
  (decodeBytes vocab ids).map utf8DecodeReplace

theorem dictLookup_some_key_mem {α β : Type} [DecidableEq α]
    {l : List (α × β)} {k : α} {v : β} (h : dictLookup l k = some v) :
    k ∈ dictKeys l :=
  List.mem_map_of_mem Prod.fst (dictLookup_mem h)

/-- The vocabulary invariant after `i` merges: keys are exactly
`0, …, 255+i` in insertion order, the 256 seed entries are the single
bytes, and every recorded merge's entry is the concatenation of its two
constituents' entries. -/
def VocabInv (i : Nat) (tr : TR) : Prop :=
  dictKeys tr.vocab = List.range (256 + i) ∧
  (∀ id : Nat, id < 256 → dictLookup tr.vocab id = some [id]) ∧
  (∀ p : Pair, ∀ idx : Nat, dictLookup tr.merges p = some idx →
    ∃ l r, dictLookup tr.vocab p.1 = some l ∧ dictLookup tr.vocab p.2 = some r ∧
      dictLookup tr.vocab idx = some (l ++ r))

theorem dictKeys_range_map (n : Nat) :
    dictKeys ((List.range n).map (fun i => (i, [i]))) = List.range n := by
  rw [dictKeys, List.map_map]
  exact List.map_id _

theorem seed_lookup : ∀ (n k : Nat), k < n →
    dictLookup ((List.range n).map (fun i => (i, [i]))) k = some [k] := by
  intro n
  induction n with
  | zero => intro k h; omega
  | succ n ih =>
    intro k h
    rw [List.range_succ, List.map_append]
    by_cases hk : k < n
    · exact dictLookup_append_left (ih k hk)
    · have hkn : k = n := by omega
      subst hkn
      have hnone : dictLookup ((List.range k).map (fun i => (i, [i]))) k = none := by
        apply dictLookup_eq_none_of_not_mem
        rw [dictKeys_range_map]
        simp
      rw [dictLookup_append_right hnone]
      simp [dictLookup]

theorem vocabInv_init : VocabInv 0 ⟨[], seedVocab⟩ := by
  refine ⟨?_, ?_, ?_⟩
  · simpa [seedVocab] using dictKeys_range_map 256
  · intro id h
    exact seed_lookup 256 id h
  · intro p idx h
    simp [dictLookup] at h

theorem recordMerge_inv {i : Nat} {tr tr' : TR} {p : Pair}
    (hInv : VocabInv i tr) (h : recordMerge tr p (256 + i) = some tr') :
    VocabInv (i + 1) tr' := by
  obtain ⟨hkeys, hbase, hmg⟩ := hInv
  rw [recordMerge] at h
  rcases hl : dictLookup tr.vocab p.1 with _ | l
  · rw [hl] at h; simp at h
  rcases hr : dictLookup tr.vocab p.2 with _ | r
  · rw [hl, hr] at h; simp at h
  rw [hl, hr] at h
  simp only [Option.some.injEq] at h
  subst h
  have hfresh : (256 + i) ∉ dictKeys tr.vocab := by
    rw [hkeys]
    simp
  have hveq : dictInsert tr.vocab (256 + i) (l ++ r) = tr.vocab ++ [(256 + i, l ++ r)] :=
    dictInsert_of_not_mem _ hfresh
  have hkey_lt : ∀ (k : Nat) (v : List Nat), dictLookup tr.vocab k = some v → k < 256 + i := by
    intro k v hv
    have := dictLookup_some_key_mem hv
    rw [hkeys] at this
    simpa using this
  have hpersist : ∀ (k : Nat) (v : List Nat), dictLookup tr.vocab k = some v →
      dictLookup (dictInsert tr.vocab (256 + i) (l ++ r)) k = some v := by
    intro k v hv
    have hk := hkey_lt k v hv
    rw [dictLookup_insert_ne _ _ _ _ (by omega)]
    exact hv
  refine ⟨?_, ?_, ?_⟩
  · rw [hveq]
    simp only [dictKeys, List.map_append, List.map_cons, List.map_nil]
    rw [show (List.map Prod.fst tr.vocab) = List.range (256 + i) from hkeys]
    rw [show 256 + (i + 1) = (256 + i) + 1 by omega, List.range_succ]
  · intro id hid
    exact hpersist id [id] (hbase id hid)
  · intro q idx hq
    by_cases hqp : q = p
    · subst hqp
      rw [dictLookup_insert_self] at hq
      simp only [Option.some.injEq] at hq
      subst hq
      exact ⟨l, r, hpersist _ _ hl, hpersist _ _ hr, dictLookup_insert_self _ _ _⟩
    · rw [dictLookup_insert_ne _ _ _ _ hqp] at hq
      rcases hmg q idx hq with ⟨l', r', h1, h2, h3⟩
      exact ⟨l', r', hpersist _ _ h1, hpersist _ _ h2, hpersist _ _ h3⟩

theorem trainLoop_inv : ∀ (n i : Nat) (ids : List Nat) (tr tr' : TR),
    VocabInv i tr → trainLoop n i ids tr = some tr' → VocabInv (i + n) tr' := by
  intro n
  induction n with
  | zero =>
    intro i ids tr tr' hInv h
    rw [trainLoop] at h
    simp only [Option.some.injEq] at h
    subst h
    exact hInv
  | succ n ih =>
    intro i ids tr tr' hInv h
    rw [trainLoop] at h
    rcases hsel : firstMax (get_stats ids) with _ | e
    · rw [hsel] at h; simp at h
    rw [hsel] at h
    simp only at h
    rcases hrec : recordMerge tr e.1 (256 + i) with _ | tr1
    · rw [hrec] at h; simp at h
    rw [hrec] at h
    simp only at h
    have := ih (i + 1) (merge ids e.1 (256 + i)) tr1 tr' (recordMerge_inv hInv hrec) h
    rw [show i + (n + 1) = (i + 1) + n by omega]
    exact this

theorem trainVecLoop_inv : ∀ (n i : Nat) (ids : List Nat) (tr tr' : TR),
    VocabInv i tr → trainVecLoop n i ids tr = some tr' → VocabInv (i + n) tr' := by
  intro n
  induction n with
  | zero =>
    intro i ids tr tr' hInv h
    rw [trainVecLoop] at h
    simp only [Option.some.injEq] at h
    subst h
    exact hInv
  | succ n ih =>
    intro i ids tr tr' hInv h
    rw [trainVecLoop] at h
    rcases hsel : vecSelect ids with _ | p
    · rw [hsel] at h; simp at h
    rw [hsel] at h
    simp only at h
    rcases hrec : recordMerge tr p (256 + i) with _ | tr1
    · rw [hrec] at h; simp at h
    rw [hrec] at h
    simp only at h
    have := ih (i + 1) (vecGo p (256 + i) false ids) tr1 tr' (recordMerge_inv hInv hrec) h
    rw [show i + (n + 1) = (i + 1) + n by omega]
    exact this

theorem train_inv {text : List Nat} {vs : Nat} {tr : TR}
    (h : train text vs = some tr) : VocabInv (vs - 256) tr := by
  rw [train] at h
  split at h
  · simpa using trainLoop_inv (vs - 256) 0 text ⟨[], seedVocab⟩ tr vocabInv_init h
  · simp at h

theorem train_vectorized_inv {text : List Nat} {vs : Nat} {tr : TR}
    (h : train_vectorized text vs = some tr) : VocabInv (vs - 256) tr := by
  rw [train_vectorized] at h
  split at h
  · simpa using trainVecLoop_inv (vs - 256) 0 text ⟨[], seedVocab⟩ tr vocabInv_init h
  · simp at h

/-- The vectorized loop equals the gpu pair-collecting loop followed by the
after-the-loop `merges`/`vocab` assembly: per iteration both select the same
pair and rewrite `ids` the same way, and recording a merge during the loop
commutes with recording it afterwards. -/
theorem vecLoop_eq_gpu : ∀ (n i : Nat) (ids : List Nat)
    (m : List (Pair × Nat)) (v : List (Nat × List Nat)),
    trainVecLoop n i ids ⟨m, v⟩ =
      match gpuLoop n i ids with
      | none => none
      | some ps =>
        match gpuVocabFrom v i ps with
        | none => none
        | some v' => some ⟨gpuMergesFrom m i ps, v'⟩ := by
  intro n
  induction n with
  | zero =>
    intro i ids m v
    simp [trainVecLoop, gpuLoop, gpuVocabFrom, gpuMergesFrom]
  | succ n ih =>
    intro i ids m v
    rw [trainVecLoop, gpuLoop]
    rcases hsel : vecSelect ids with _ | p
    · simp
    simp only
    rw [recordMerge]
    simp only
    rcases hl : dictLookup v p.1 with _ | l
    · simp only
      rcases hg : gpuLoop n (i + 1) (vecGo p (256 + i) false ids) with _ | ps
      · simp
      · simp only [Option.map_some']
        rw [gpuVocabFrom]
        rw [hl]
    rcases hr : dictLookup v p.2 with _ | r
    · simp only
      rcases hg : gpuLoop n (i + 1) (vecGo p (256 + i) false ids) with _ | ps
      · simp
      · simp only [Option.map_some']
        rw [gpuVocabFrom]
        rw [hl, hr]
    simp only
    rw [ih (i + 1) (vecGo p (256 + i) false ids) (dictInsert m p (256 + i))
      (dictInsert v (256 + i) (l ++ r))]
    rcases hg : gpuLoop n (i + 1) (vecGo p (256 + i) false ids) with _ | ps
    · simp
    · simp only [Option.map_some']
      rw [gpuVocabFrom]
      rw [hl, hr]
      rw [gpuMergesFrom]

theorem train_vec_eq_gpu (text : List Nat) (vs : Nat) :
    train_vectorized text vs = train_gpu text vs := by
  rw [train_vectorized, train_gpu]
  split
  · rw [vecLoop_eq_gpu]
  · rfl

theorem train_gpu_inv {text : List Nat} {vs : Nat} {tr : TR}
    (h : train_gpu text vs = some tr) : VocabInv (vs - 256) tr := by
  rw [← train_vec_eq_gpu] at h
  exact train_vectorized_inv h

theorem decodeBytes_cons (vocab : List (Nat × List Nat)) (i : Nat) (rest : List Nat) :
    decodeBytes vocab (i :: rest) =
      match dictLookup vocab i, decodeBytes vocab rest with
      | some bs, some tl => some (bs ++ tl)
      | _, _ => none := rfl

/-- Applying one merge whose vocabulary entry is the concatenation of its
constituents' entries does not change the decoded byte string. -/
theorem decodeBytes_merge (vocab : List (Nat × List Nat)) (p : Pair) (idx : Nat)
    (l r : List Nat) (hl : dictLookup vocab p.1 = some l)
    (hr : dictLookup vocab p.2 = some r)
    (hidx : dictLookup vocab idx = some (l ++ r)) :
    ∀ (ids bs : List Nat), decodeBytes vocab ids = some bs →
      decodeBytes vocab (merge ids p idx) = some bs := by
  intro ids
  match ids with
  | [] => intro bs h; simpa [merge] using h
  | [a] => intro bs h; simpa [merge] using h
  | a :: b :: rest =>
    intro bs h
    rw [decodeBytes_cons] at h
    rcases ha : dictLookup vocab a with _ | va
    · rw [ha] at h; simp at h
    rw [ha] at h
    rcases htl : decodeBytes vocab (b :: rest) with _ | tl
    · rw [htl] at h; simp at h
    rw [htl] at h
    simp only [Option.some.injEq] at h
    subst h
    have htl2 := htl
    rw [decodeBytes_cons] at htl2
    rcases hb : dictLookup vocab b with _ | vb
    · rw [hb] at htl2; simp at htl2
    rw [hb] at htl2
    rcases hrest : decodeBytes vocab rest with _ | tl2
    · rw [hrest] at htl2; simp at htl2
    rw [hrest] at htl2
    have htl3 : vb ++ tl2 = tl := by simpa using htl2
    rw [merge]
    by_cases hm : (a, b) = p
    · rw [if_pos hm]
      have ha1 : a = p.1 := by rw [← hm]
      have hb1 : b = p.2 := by rw [← hm]
      have hva : va = l := by
        rw [ha1, hl] at ha
        simpa using ha.symm
      have hvb : vb = r := by
        rw [hb1, hr] at hb
        simpa using hb.symm
      rw [decodeBytes_cons, hidx,
        decodeBytes_merge vocab p idx l r hl hr hidx rest tl2 hrest]
      show some ((l ++ r) ++ tl2) = some (va ++ tl)
      rw [hva, ← htl3, hvb]
      simp [List.append_assoc]
    · rw [if_neg hm]
      rw [decodeBytes_cons, ha,
        decodeBytes_merge vocab p idx l r hl hr hidx (b :: rest) tl htl]

/-- Decoding a pure byte string against a vocabulary whose seed entries are
intact returns the byte string itself. -/
theorem decodeBytes_bytes (vocab : List (Nat × List Nat))
    (hbase : ∀ id : Nat, id < 256 → dictLookup vocab id = some [id]) :
    ∀ (bs : List Nat), (∀ b ∈ bs, b < 256) → decodeBytes vocab bs = some bs := by
  intro bs
  induction bs with
  | nil => intro _; rfl
  | cons b rest ih =>
    intro h
    rw [decodeBytes_cons, hbase b (h b (List.mem_cons_self _ _)),
      ih (fun x hx => h x (List.mem_cons_of_mem _ hx))]
    rfl

/-- A missing id makes `decodeBytes` (and hence `decode`) raise. -/
theorem decodeBytes_none_of_missing (vocab : List (Nat × List Nat)) :
    ∀ (ids : List Nat) (id : Nat), id ∈ ids → dictLookup vocab id = none →
      decodeBytes vocab ids = none := by
  intro ids
  induction ids with
  | nil => intro id h; simp at h
  | cons i rest ih =>
    intro id h hnone
    rcases List.mem_cons.1 h with h | h
    · subst h
      rw [decodeBytes_cons, hnone]
    · rw [decodeBytes_cons, ih id h hnone]
      cases dictLookup vocab i <;> rfl

/-- When every id is present, `decodeBytes` succeeds. -/
theorem decodeBytes_isSome (vocab : List (Nat × List Nat)) :
    ∀ (ids : List Nat), (∀ id ∈ ids, (dictLookup vocab id).isSome) →
      (decodeBytes vocab ids).isSome := by
  intro ids
  induction ids with
  | nil => intro _; simp [decodeBytes]
  | cons i rest ih =>
    intro h
    rw [decodeBytes_cons]
    rcases hi : dictLookup vocab i with _ | v
    · have := h i (List.mem_cons_self _ _)
      rw [hi] at this
      simp at this
    · have := ih (fun x hx => h x (List.mem_cons_of_mem _ hx))
      rcases htl : decodeBytes vocab rest with _ | tl
      · rw [htl] at this
        simp at this
      · simp

theorem encode_short {merges : List (Pair × Nat)} {ids : List Nat}
    (h : ids.length < 2) : encode merges ids = ids := by
  rw [encode.eq_def]
  split
  · omega
  · rfl

theorem encode_step {merges : List (Pair × Nat)} {ids : List Nat} {p : Pair} {idx : Nat}
    (hlen : 2 ≤ ids.length)
    (hsel : firstMin merges (get_stats ids) = some p)
    (hidx : dictLookup merges p = some idx) :
    encode merges ids = encode merges (merge ids p idx) := by
  conv_lhs => rw [encode.eq_def]
  rw [dif_pos hlen]
  split
  · rename_i heq
    rw [hsel] at heq
    simp at heq
  · rename_i p' heq
    rw [hsel] at heq
    simp only [Option.some.injEq] at heq
    subst heq
    split
    · rename_i heq2
      rw [hidx] at heq2
      simp at heq2
    · rename_i idx' heq2
      rw [hidx] at heq2
      simp only [Option.some.injEq] at heq2
      subst heq2
      rfl

theorem encode_break {merges : List (Pair × Nat)} {ids : List Nat} {p : Pair}
    (hlen : 2 ≤ ids.length)
    (hsel : firstMin merges (get_stats ids) = some p)
    (hidx : dictLookup merges p = none) :
    encode merges ids = ids := by
  rw [encode.eq_def]
  rw [dif_pos hlen]
  split
  · rfl
  · rename_i p' heq
    rw [hsel] at heq
    simp only [Option.some.injEq] at heq
    subst heq
    split
    · rfl
    · rename_i idx' heq2
      rw [hidx] at heq2
      simp at heq2

/-- The `encode` loop preserves the decoded byte string whenever every
recorded merge's vocabulary entry is the concatenation of its constituents'
entries. -/
theorem encode_decodeBytes (merges : List (Pair × Nat)) (vocab : List (Nat × List Nat))
    (hmg : ∀ p : Pair, ∀ idx : Nat, dictLookup merges p = some idx →
      ∃ l r, dictLookup vocab p.1 = some l ∧ dictLookup vocab p.2 = some r ∧
        dictLookup vocab idx = some (l ++ r)) :
    ∀ (n : Nat) (ids bs : List Nat), ids.length ≤ n →
      decodeBytes vocab ids = some bs →
      decodeBytes vocab (encode merges ids) = some bs := by
  intro n
  induction n with
  | zero =>
    intro ids bs hn h
    rw [encode_short (by omega)]
    exact h
  | succ n ih =>
    intro ids bs hn h
    by_cases hlen : 2 ≤ ids.length
    · rcases hsel : firstMin merges (get_stats ids) with _ | p
      · have := firstMin_eq_none hsel
        exact absurd this (get_stats_ne_nil hlen)
      · rcases hidx : dictLookup merges p with _ | idx
        · rw [encode_break hlen hsel hidx]
          exact h
        · rw [encode_step hlen hsel hidx]
          rcases (firstMin_spec merges hsel).1 with ⟨c, hc⟩
          have hzip : p ∈ ids.zip ids.tail := get_stats_key_mem hc
          have hlt := merge_length_lt ids p idx hzip
          rcases hmg p idx hidx with ⟨l, r, hl, hr, hix⟩
          exact ih (merge ids p idx) bs (by omega)
            (decodeBytes_merge vocab p idx l r hl hr hix ids bs h)
    · rw [encode_short (by omega)]
      exact h

/-- `length ids` units of fuel suffice for the `encode` loop. -/
theorem encodeFuel_eq (merges : List (Pair × Nat)) :
    ∀ (n : Nat) (ids : List Nat), ids.length ≤ n →
      encodeFuel merges n ids = encode merges ids := by
  intro n
  induction n with
  | zero =>
    intro ids hn
    rw [encodeFuel, encode_short (by omega)]
  | succ n ih =>
    intro ids hn
    rw [encodeFuel]
    by_cases hlen : 2 ≤ ids.length
    · rw [if_pos hlen]
      rcases hsel : firstMin merges (get_stats ids) with _ | p
      · have := firstMin_eq_none hsel
        exact absurd this (get_stats_ne_nil hlen)
      · rcases hidx : dictLookup merges p with _ | idx
        · simp only [hidx]
          rw [encode_break hlen hsel hidx]
        · simp only [hidx]
          rcases (firstMin_spec merges hsel).1 with ⟨c, hc⟩
          have hzip : p ∈ ids.zip ids.tail := get_stats_key_mem hc
          have hlt := merge_length_lt ids p idx hzip
          rw [encode_step hlen hsel hidx]
          exact ih (merge ids p idx) (by omega)
    · rw [if_neg hlen, encode_short (by omega)]

theorem utf8EncodeChar_lt {v : Nat} (h : isScalar v) :
    ∀ b ∈ utf8EncodeChar v, b < 256 := by
  obtain ⟨h1, h2⟩ := h
  intro b hb
  rw [utf8EncodeChar] at hb
  split_ifs at hb with c1 c2 c3 <;> simp at hb <;> omega

theorem utf8DecodeOne_encodeChar {v : Nat} (h : isScalar v) (tl : List Nat) :
    utf8DecodeOne (utf8EncodeChar v ++ tl) = some (v, tl) := by
  obtain ⟨h1, h2⟩ := h
  rw [utf8EncodeChar]
  split_ifs with c1 c2 c3
  · simp only [List.cons_append, List.nil_append]
    simp only [utf8DecodeOne]
    rw [if_pos c1]
  · simp only [List.cons_append, List.nil_append]
    simp only [utf8DecodeOne]
    rw [if_neg (by omega), if_pos (by omega), if_pos (by omega)]
    simp only [Option.some.injEq, Prod.mk.injEq]
    exact ⟨by omega, trivial⟩
  · simp only [List.cons_append, List.nil_append]
    simp only [utf8DecodeOne]
    rw [if_neg (by omega), if_neg (by omega), if_pos (by omega), if_pos (by omega)]
    simp only [Option.some.injEq, Prod.mk.injEq]
    exact ⟨by omega, trivial⟩
  · simp only [List.cons_append, List.nil_append]
    simp only [utf8DecodeOne]
    rw [if_neg (by omega), if_neg (by omega), if_neg (by omega), if_pos (by omega),
      if_pos (by omega)]
    simp only [Option.some.injEq, Prod.mk.injEq]
    exact ⟨by omega, trivial⟩

theorem utf8Encode_nil : utf8Encode [] = [] := rfl

theorem utf8Encode_cons (c : Nat) (s : List Nat) :
    utf8Encode (c :: s) = utf8EncodeChar c ++ utf8Encode s := by
  simp [utf8Encode]

theorem utf8DecodeStrict_some_step {bs : List Nat} {c : Nat} {rest : List Nat}
    (h : utf8DecodeOne bs = some (c, rest)) :
    utf8DecodeStrict bs = (utf8DecodeStrict rest).map (c :: ·) := by
  rw [utf8DecodeStrict.eq_def]
  split
  · rename_i c' rest' heq
    rw [h] at heq
    simp only [Option.some.injEq, Prod.mk.injEq] at heq
    rw [heq.1, heq.2]
  · rename_i heq
    rw [h] at heq
    simp at heq

theorem utf8DecodeStrict_none_step {bs : List Nat}
    (h : utf8DecodeOne bs = none) :
    utf8DecodeStrict bs = if bs = [] then some [] else none := by
  rw [utf8DecodeStrict.eq_def]
  split
  · rename_i c' rest' heq
    rw [h] at heq
    simp at heq
  · rfl

theorem utf8DecodeReplace_some_step {bs : List Nat} {c : Nat} {rest : List Nat}
    (h : utf8DecodeOne bs = some (c, rest)) :
    utf8DecodeReplace bs = c :: utf8DecodeReplace rest := by
  rw [utf8DecodeReplace.eq_def]
  split
  · rename_i c' rest' heq
    rw [h] at heq
    simp only [Option.some.injEq, Prod.mk.injEq] at heq
    rw [heq.1, heq.2]
  · rename_i heq
    rw [h] at heq
    simp at heq

theorem utf8DecodeReplace_nil : utf8DecodeReplace [] = [] := by
  rw [utf8DecodeReplace.eq_def]
  split
  · rename_i c' rest' heq
    simp [utf8DecodeOne] at heq
  · rfl

theorem utf8DecodeReplace_none_step {b : Nat} {rest : List Nat}
    (h : utf8DecodeOne (b :: rest) = none) :
    utf8DecodeReplace (b :: rest) =
      0xFFFD :: utf8DecodeReplace ((b :: rest).drop (invalidLen (b :: rest))) := by
  rw [utf8DecodeReplace.eq_def]
  split
  · rename_i c' rest' heq
    rw [h] at heq
    simp at heq
  · rfl

theorem utf8DecodeStrict_encode : ∀ (s : List Nat), (∀ c ∈ s, isScalar c) →
    utf8DecodeStrict (utf8Encode s) = some s := by
  intro s
  induction s with
  | nil =>
    intro _
    rw [utf8Encode_nil,
      utf8DecodeStrict_none_step (show utf8DecodeOne ([] : List Nat) = none from rfl)]
    rfl
  | cons c s ih =>
    intro h
    rw [utf8Encode_cons,
      utf8DecodeStrict_some_step
        (utf8DecodeOne_encodeChar (h c (List.mem_cons_self _ _)) _),
      ih (fun x hx => h x (List.mem_cons_of_mem _ hx))]
    rfl

theorem utf8DecodeReplace_strict : ∀ (n : Nat) (bs cs : List Nat), bs.length ≤ n →
    utf8DecodeStrict bs = some cs → utf8DecodeReplace bs = cs := by
  intro n
  induction n with
  | zero =>
    intro bs cs hn h
    have hbs : bs = [] := by
      cases bs
      · rfl
      · simp at hn
    subst hbs
    rw [utf8DecodeStrict_none_step
      (show utf8DecodeOne ([] : List Nat) = none from rfl)] at h
    simp at h
    simp [utf8DecodeReplace_nil, h]
  | succ n ih =>
    intro bs cs hn h
    rcases hone : utf8DecodeOne bs with _ | cr
    · rw [utf8DecodeStrict_none_step hone] at h
      split at h
      · rename_i hbs
        subst hbs
        simp only [Option.some.injEq] at h
        rw [utf8DecodeReplace_nil, ← h]
      · simp at h
    · obtain ⟨c, rest⟩ := cr
      rw [utf8DecodeStrict_some_step hone] at h
      rcases hrest : utf8DecodeStrict rest with _ | cs'
      · rw [hrest] at h; simp at h
      · rw [hrest] at h
        simp only [Option.map_some', Option.some.injEq] at h
        subst h
        have hlt := utf8DecodeOne_length hone
        rw [utf8DecodeReplace_some_step hone, ih rest cs' (by omega) hrest]

theorem utf8DecodeStrict_none_mem : ∀ (n : Nat) (bs : List Nat), bs.length ≤ n →
    utf8DecodeStrict bs = none → 0xFFFD ∈ utf8DecodeReplace bs := by
  intro n
  induction n with
  | zero =>
    intro bs hn h
    have hbs : bs = [] := by
      cases bs
      · rfl
      · simp at hn
    subst hbs
    rw [utf8DecodeStrict_none_step
      (show utf8DecodeOne ([] : List Nat) = none from rfl)] at h
    simp at h
  | succ n ih =>
    intro bs hn h
    rcases hone : utf8DecodeOne bs with _ | cr
    · cases bs with
      | nil =>
        rw [utf8DecodeStrict_none_step hone] at h
        simp at h
      | cons b rest =>
        rw [utf8DecodeReplace_none_step hone]
        exact List.mem_cons_self _ _
    · obtain ⟨c, rest⟩ := cr
      rw [utf8DecodeStrict_some_step hone] at h
      rcases hrest : utf8DecodeStrict rest with _ | cs'
      · have hlt := utf8DecodeOne_length hone
        rw [utf8DecodeReplace_some_step hone]
        exact List.mem_cons_of_mem _ (ih rest (by omega) hrest)
      · rw [hrest] at h
        simp at h

/-- Round trip: encoding any scalar text against a trained pair
`(merges, vocab)` satisfying the vocabulary invariant and decoding the
result returns the original text. -/
theorem roundTrip (tr : TR) {k : Nat} (hInv : VocabInv k tr) (s : List Nat)
    (hs : ∀ c ∈ s, isScalar c) :
    decode tr.vocab (encode tr.merges (utf8Encode s)) = some s := by
  obtain ⟨hkeys, hbase, hmg⟩ := hInv
  have hbytes : ∀ b ∈ utf8Encode s, b < 256 := by
    intro b hb
    rw [utf8Encode, List.mem_flatten] at hb
    rcases hb with ⟨l, hl, hb⟩
    rw [List.mem_map] at hl
    rcases hl with ⟨c, hc, hcl⟩
    exact utf8EncodeChar_lt (hs c hc) b (hcl ▸ hb)
  have h0 : decodeBytes tr.vocab (utf8Encode s) = some (utf8Encode s) :=
    decodeBytes_bytes _ hbase _ hbytes
  have h1 : decodeBytes tr.vocab (encode tr.merges (utf8Encode s)) = some (utf8Encode s) :=
    encode_decodeBytes tr.merges tr.vocab hmg (utf8Encode s).length _ _ le_rfl h0
  rw [decode, h1]
  simp only [Option.map_some']
  rw [utf8DecodeReplace_strict (utf8Encode s).length _ _ le_rfl
    (utf8DecodeStrict_encode s hs)]

/-- When every adjacent pair of `ids` is outside the merge table, the encode
loop stops immediately. -/
theorem encode_stop {merges : List (Pair × Nat)} {ids : List Nat}
    (hlen : 2 ≤ ids.length)
    (hnone : ∀ q ∈ ids.zip ids.tail, dictLookup merges q = none) :
    encode merges ids = ids := by
  rcases hsel : firstMin merges (get_stats ids) with _ | p'
  · exact absurd (firstMin_eq_none hsel) (get_stats_ne_nil hlen)
  rcases (firstMin_spec merges hsel).1 with ⟨c, hc⟩
  exact encode_break hlen hsel (hnone p' (get_stats_key_mem hc))

/-- When `p` is a present pair whose merge index is minimal among present
merge-table pairs (merge indices being distinct), the encode loop applies
exactly that merge next. -/
theorem encode_picks_min {merges : List (Pair × Nat)} {ids : List Nat}
    {p : Pair} {idx : Nat}
    (hnd : (merges.map Prod.snd).Nodup)
    (hlen : 2 ≤ ids.length)
    (hp : dictLookup merges p = some idx)
    (hpin : p ∈ ids.zip ids.tail)
    (hmin : ∀ (q : Pair) (j : Nat), q ∈ ids.zip ids.tail →
      dictLookup merges q = some j → idx ≤ j) :
    encode merges ids = encode merges (merge ids p idx) := by
  rcases hsel : firstMin merges (get_stats ids) with _ | p'
  · exact absurd (firstMin_eq_none hsel) (get_stats_ne_nil hlen)
  obtain ⟨⟨c', hc'⟩, hminchar⟩ := firstMin_spec merges hsel
  have hpk : p ∈ dictKeys (get_stats ids) := get_stats_mem_key hpin
  rcases dictLookup_isSome_of_mem hpk with ⟨cp, hcp⟩
  have hpe : (p, cp) ∈ get_stats ids := dictLookup_mem hcp
  have h1 : ltInf (dictLookup merges p) (dictLookup merges p') = false :=
    hminchar (p, cp) hpe
  rw [hp] at h1
  rcases hx : dictLookup merges p' with _ | j
  · rw [hx] at h1
    simp [ltInf] at h1
  · rw [hx] at h1
    simp only [ltInf, decide_eq_false_iff_not, not_lt] at h1
    have hp'zip : p' ∈ ids.zip ids.tail := get_stats_key_mem hc'
    have hj : idx ≤ j := hmin p' j hp'zip hx
    have hjeq : j = idx := by omega
    subst hjeq
    have hpp' : p' = p := dictLookup_inj_of_nodup_values hx hp hnd
    subst hpp'
    exact encode_step hlen hsel hp

theorem get_stats_short {ids : List Nat} (h : ids.length < 2) : get_stats ids = [] := by
  match ids with
  | [] => rfl
  | [a] => rfl
  | a :: b :: rest => simp at h; omega

theorem zip_tail_short {ids : List Nat} (h : ids.length < 2) :
    ids.zip ids.tail = [] := by
  match ids with
  | [] => rfl
  | [a] => rfl
  | a :: b :: rest => simp at h; omega

/-- Written from the spec's words (§4.2 MergeSelector), for comparison with
the code's selections: among the stats entries of maximal count, the
lexicographically smallest pair. -/
def lexSmallestMax : List (Pair × Nat) → Option Pair
  | [] => none
  | e :: rest =>
    some ((rest.foldl
      (fun b f => if f.2 > b.2 || (f.2 = b.2 && lexLt f.1 b.1) then f else b) e).1)

set_option maxRecDepth 40000

/-- Claim C1, counterexample: on the text `"bac"` (bytes `[98, 97, 99]`)
with `vocab_size = 257`, `train` and `train_vectorized` both complete but
record different merges (`(98,97)` vs `(97,99)`; all pairs are tied at one
occurrence and the two strategies break the tie differently); on
`"aaabaaab"` with `vocab_size = 258` they also diverge through the
overlapping-pair removal. -/
theorem C1_counterexample :
    (train [98, 97, 99] 257).isSome = true ∧
    (train_vectorized [98, 97, 99] 257).isSome = true ∧
    train [98, 97, 99] 257 ≠ train_vectorized [98, 97, 99] 257 ∧
    (train [97, 97, 97, 98, 97, 97, 97, 98] 258).isSome = true ∧
    (train_vectorized [97, 97, 97, 98, 97, 97, 97, 98] 258).isSome = true ∧
    train [97, 97, 97, 98, 97, 97, 97, 98] 258 ≠
      train_vectorized [97, 97, 97, 98, 97, 97, 97, 98] 258 := by
  refine ⟨by decide, by decide, by decide, by decide, by decide, by decide⟩

/-- Claim C1 (amended): each training strategy is deterministic (two runs on
the same input and vocab_size give identical results), and
`train_vectorized` and `train_gpu` produce identical results on every input;
`train`, however, may produce a different MergeTable/Vocabulary from the
other two (see the counterexample). -/
theorem C1_amended : ∀ (text : List Nat) (vs : Nat),
    train text vs = train text vs ∧
    train_vectorized text vs = train_vectorized text vs ∧
    train_gpu text vs = train_gpu text vs ∧
    train_vectorized text vs = train_gpu text vs := by
  intro text vs
  exact ⟨rfl, rfl, rfl, train_vec_eq_gpu text vs⟩

/-- Claim C2: for every token id `X` and replacement `idxN`, the sequential
scan `merge` maps `[X, X, X]` with pair `(X, X)` to `[idxN, X]`, but the
numpy/torch mask-based removal of `train_vectorized`/`train_gpu` maps it to
`[idxN]`: the mask marks both overlapping occurrences, so the assignment
rewrites positions 0 and 1 and the rolled mask then deletes positions 1 and
2, losing the third `X`. -/
theorem C2_overlap : ∀ (X idxN : Nat),
    merge [X, X, X] (X, X) idxN = [idxN, X] ∧
    vecGo (X, X) idxN false [X, X, X] = [idxN] := by
  intro X idxN
  constructor
  · simp [merge]
  · simp [vecGo]

/-- Claim C3, counterexample: on `"bac"` the stats are
`{(98,97): 1, (97,99): 1}`; `train` selects `(98,97)` (the first maximal
entry in first-occurrence order), not the lexicographically smallest
maximal pair `(97,99)` demanded by the claim. -/
theorem C3_counterexample :
    (train [98, 97, 99] 257).map TR.merges = some [((98, 97), 256)] ∧
    lexSmallestMax (get_stats [98, 97, 99]) = some (97, 99) ∧
    ((98, 97) : Pair) ≠ ((97, 99) : Pair) := by
  refine ⟨by decide, by decide, by decide⟩

/-- Claim C3 (amended): in `train_vectorized` and `train_gpu` the selected
pair is of maximal count and, among maximal-count pairs, lexicographically
smallest (`unique` sorts rows, `argmax` takes the first maximum); in
`train` the selected pair is of maximal count but the tie-break is the
first maximal entry in the stats dict's insertion order, not the
lexicographic rule. -/
theorem C3_amended : ∀ (ids : List Nat) (p : Pair) (c : Nat),
    (vecSelect ids = some p →
      p ∈ ids.zip ids.tail ∧
      ∀ q ∈ ids.zip ids.tail,
        (ids.zip ids.tail).count q ≤ (ids.zip ids.tail).count p ∧
        ((ids.zip ids.tail).count q = (ids.zip ids.tail).count p →
          p = q ∨ lexLt p q = true)) ∧
    (firstMax (get_stats ids) = some (p, c) →
      p ∈ ids.zip ids.tail ∧
      ∀ q ∈ ids.zip ids.tail,
        (ids.zip ids.tail).count q ≤ (ids.zip ids.tail).count p) := by
  intro ids p c
  exact ⟨fun h => vecSelect_spec h, fun h => trainSelect_spec h⟩

/-- Witness for C3 (amended) at `ids = [2, 3, 1, 2]`: all three adjacent
pairs are tied; the vectorized selection picks `(1,2)` (lexicographically
smallest), `train`'s picks `(2,3)` (first occurrence); both are maximal. -/
theorem C3_amended_witness :
    ((1, 2) : Pair) ∈ ([2, 3, 1, 2] : List Nat).zip ([2, 3, 1, 2] : List Nat).tail ∧
    ((2, 3) : Pair) ∈ ([2, 3, 1, 2] : List Nat).zip ([2, 3, 1, 2] : List Nat).tail := by
  have h1 := (C3_amended [2, 3, 1, 2] (1, 2) 1).1 (by decide)
  have h2 := (C3_amended [2, 3, 1, 2] (2, 3) 1).2 (by decide)
  exact ⟨h1.1, h2.1⟩

/-- Claim C4: for every UTF-8 text `s` (a list of Unicode scalar values) and
every `(merges, vocab)` produced by a completed run of any of the three
training strategies on any text, `decode (encode s) = s`. -/
theorem C4_round_trip : ∀ (t : List Nat) (vs : Nat) (tr : TR) (s : List Nat),
    (train t vs = some tr ∨ train_vectorized t vs = some tr ∨
      train_gpu t vs = some tr) →
    (∀ c ∈ s, isScalar c) →
    decode tr.vocab (encode tr.merges (utf8Encode s)) = some s := by
  intro t vs tr s htr hs
  have hInv : VocabInv (vs - 256) tr := by
    rcases htr with h | h | h
    exacts [train_inv h, train_vectorized_inv h, train_gpu_inv h]
  exact roundTrip tr hInv s hs

/-- Witness for C4: train on `"ab"` with `vocab_size = 257`, then round-trip
the text `"hi"` (`[104, 105]`). -/
theorem C4_witness :
    train [97, 98] 257 = some ⟨[((97, 98), 256)], seedVocab ++ [(256, [97, 98])]⟩ ∧
    decode (seedVocab ++ [(256, [97, 98])])
      (encode [((97, 98), 256)] (utf8Encode [104, 105])) = some [104, 105] := by
  constructor
  · decide
  · exact C4_round_trip [97, 98] 257
      ⟨[((97, 98), 256)], seedVocab ++ [(256, [97, 98])]⟩ [104, 105]
      (Or.inl (by decide)) (by decide)

/-- Claim C5, counterexample: training on the single byte `0x41` with
`vocab_size = 300` does not stop early with zero merges: iteration 0 finds
empty pair statistics and `max` (resp. `argmax`) raises, i.e. the model
returns `none`. -/
theorem C5_counterexample :
    train [65] 300 = none ∧ train_vectorized [65] 300 = none := by
  refine ⟨by decide, by decide⟩

/-- Claim C5 (amended): with `vocab_size = 256` (zero merges requested)
`train` returns the empty MergeTable and the 256-entry seed Vocabulary for
any input; but when the initial token sequence has fewer than 2 tokens and
`vocab_size > 256`, both `train` and `train_vectorized` raise (`max` /
`argmax` over empty statistics) instead of stopping early — there is no
saturation path. -/
theorem C5_amended : ∀ (text : List Nat) (vs : Nat),
    train text 256 = some ⟨[], seedVocab⟩ ∧
    (text.length < 2 → 256 < vs →
      train text vs = none ∧ train_vectorized text vs = none) := by
  intro text vs
  constructor
  · rw [train, if_pos (by omega)]
    rfl
  · intro hlen hvs
    constructor
    · rw [train, if_pos (by omega)]
      rcases hn : vs - 256 with _ | n
      · omega
      · rw [trainLoop, get_stats_short hlen]
        rfl
    · rw [train_vectorized, if_pos (by omega)]
      rcases hn : vs - 256 with _ | n
      · omega
      · rw [trainVecLoop]
        have hsel : vecSelect text = none := by
          rw [vecSelect, zip_tail_short hlen]
          rfl
        rw [hsel]

/-- Witness for C5 (amended) at `text = [65]`, `vs = 300`. -/
theorem C5_amended_witness :
    train [65] 256 = some ⟨[], seedVocab⟩ ∧
    train [65] 300 = none ∧ train_vectorized [65] 300 = none := by
  have h := C5_amended [65] 300
  exact ⟨h.1, h.2 (by decide) (by decide)⟩

/-- Claim C6: for a merge table with distinct assigned ids, the encode loop
on a sequence of at least two tokens stops exactly when no present adjacent
pair is a merge-table key, and otherwise applies the present merge-table
pair with the smallest assigned id. -/
theorem C6_encode_policy : ∀ (merges : List (Pair × Nat)) (ids : List Nat),
    (merges.map Prod.snd).Nodup →
    2 ≤ ids.length →
    ((∀ q ∈ ids.zip ids.tail, dictLookup merges q = none) →
      encode merges ids = ids) ∧
    (∀ (p : Pair) (idx : Nat), dictLookup merges p = some idx →
      p ∈ ids.zip ids.tail →
      (∀ (q : Pair) (j : Nat), q ∈ ids.zip ids.tail →
        dictLookup merges q = some j → idx ≤ j) →
      encode merges ids = encode merges (merge ids p idx)) := by
  intro merges ids hnd hlen
  constructor
  · intro hnone
    exact encode_stop hlen hnone
  · intro p idx hp hpin hmin
    exact encode_picks_min hnd hlen hp hpin hmin

/-- Witness for C6 on `merges = {(97,98): 256, (98,99): 257}` and
`ids = [97, 98, 99]`: both pairs are present, `(97,98)` has the smaller
id and is merged first; on `ids = [1, 2, 3]` no pair is a key and the loop
stops. -/
theorem C6_witness :
    encode [((97, 98), 256), ((98, 99), 257)] [97, 98, 99] =
      encode [((97, 98), 256), ((98, 99), 257)] (merge [97, 98, 99] (97, 98) 256) ∧
    encode [((97, 98), 256), ((98, 99), 257)] [1, 2, 3] = [1, 2, 3] := by
  constructor
  · refine (C6_encode_policy [((97, 98), 256), ((98, 99), 257)] [97, 98, 99]
      (by decide) (by decide)).2 (97, 98) 256 (by decide) (by decide) ?_
    intro q j hq hj
    have hq' : q = ((97, 98) : Pair) ∨ q = ((98, 99) : Pair) := by
      simpa using hq
    rcases hq' with hq' | hq' <;> subst hq' <;> simp [dictLookup] at hj <;> omega
  · exact (C6_encode_policy [((97, 98), 256), ((98, 99), 257)] [1, 2, 3]
      (by decide) (by decide)).1 (by decide)

/-- Claim C7: decoding a sequence containing an id absent from the
vocabulary raises (`none`), decoding succeeds whenever every id is present,
and on bytes that are not valid UTF-8 the result substitutes U+FFFD (it
never fails). -/
theorem C7_decode_errors : ∀ (vocab : List (Nat × List Nat)) (ids : List Nat)
    (id : Nat) (bs : List Nat),
    (id ∈ ids → dictLookup vocab id = none → decode vocab ids = none) ∧
    ((∀ i ∈ ids, (dictLookup vocab i).isSome) → (decode vocab ids).isSome) ∧
    (decodeBytes vocab ids = some bs →
      decode vocab ids = some (utf8DecodeReplace bs) ∧
      (utf8DecodeStrict bs = none → 0xFFFD ∈ utf8DecodeReplace bs)) := by
  intro vocab ids id bs
  refine ⟨?_, ?_, ?_⟩
  · intro hmem hnone
    rw [decode, decodeBytes_none_of_missing vocab ids id hmem hnone]
    rfl
  · intro hall
    rw [decode]
    have := decodeBytes_isSome vocab ids hall
    rcases h : decodeBytes vocab ids with _ | v
    · rw [h] at this
      simp at this
    · simp
  · intro h
    rw [decode, h]
    exact ⟨rfl, fun hn => utf8DecodeStrict_none_mem bs.length bs le_rfl hn⟩

/-- Witness for C7: id `300` is missing from the seed vocabulary, so
`decode [300]` raises; `[128]` is present but decodes to the invalid byte
`0x80`, which is replaced by U+FFFD. -/
theorem C7_witness :
    decode seedVocab [300] = none ∧
    decode seedVocab [128] = some (utf8DecodeReplace [128]) ∧
    (0xFFFD : Nat) ∈ utf8DecodeReplace [128] := by
  have h1 := (C7_decode_errors seedVocab [300] 300 []).1 (by decide) (by decide)
  have hstrict : utf8DecodeStrict [128] = none := by
    rw [utf8DecodeStrict_none_step (show utf8DecodeOne [128] = none from by decide)]
    simp
  have h3 := (C7_decode_errors seedVocab [128] 0 [128]).2.2 (by decide)
  exact ⟨h1, h3.1, h3.2 hstrict⟩

/-- Claim C8: after a completed training run of any strategy, the
vocabulary keys are exactly `0, …, 255 + k` (`k = vocab_size - 256` merges
performed, so `256 + k` entries, never overwritten), seed entries are the
single bytes, and every recorded merge's entry is the concatenation of its
constituents' entries. -/
theorem C8_vocab_growth : ∀ (t : List Nat) (vs : Nat) (tr : TR),
    (train t vs = some tr ∨ train_vectorized t vs = some tr ∨
      train_gpu t vs = some tr) →
    dictKeys tr.vocab = List.range (256 + (vs - 256)) ∧
    tr.vocab.length = 256 + (vs - 256) ∧
    (∀ id : Nat, id < 256 → dictLookup tr.vocab id = some [id]) ∧
    (∀ (p : Pair) (idx : Nat), dictLookup tr.merges p = some idx →
      ∃ l r, dictLookup tr.vocab p.1 = some l ∧ dictLookup tr.vocab p.2 = some r ∧
        dictLookup tr.vocab idx = some (l ++ r)) := by
  intro t vs tr htr
  have hInv : VocabInv (vs - 256) tr := by
    rcases htr with h | h | h
    exacts [train_inv h, train_vectorized_inv h, train_gpu_inv h]
  obtain ⟨hkeys, hbase, hmg⟩ := hInv
  refine ⟨hkeys, ?_, hbase, hmg⟩
  have := congrArg List.length hkeys
  simpa [dictKeys] using this

/-- Witness for C8: the run of `train` on `"ab"` with `vocab_size = 257`. -/
theorem C8_witness :
    (seedVocab ++ [(256, [97, 98])]).length = 256 + (257 - 256) ∧
    dictLookup (seedVocab ++ [(256, [97, 98])]) 97 = some [97] ∧
    dictLookup (seedVocab ++ [(256, [97, 98])]) 256 = some ([97] ++ [98]) := by
  have h := C8_vocab_growth [97, 98] 257
    ⟨[((97, 98), 256)], seedVocab ++ [(256, [97, 98])]⟩ (Or.inl (by decide))
  refine ⟨h.2.1, h.2.2.1 97 (by decide), ?_⟩
  rcases h.2.2.2 (97, 98) 256 (by decide) with ⟨l, r, hl, hr, hidx⟩
  have hl' : l = [97] := by
    have : dictLookup (seedVocab ++ [(256, [97, 98])]) 97 = some [97] := by decide
    rw [this] at hl
    simpa using hl.symm
  have hr' : r = [98] := by
    have : dictLookup (seedVocab ++ [(256, [97, 98])]) 98 = some [98] := by decide
    rw [this] at hr
    simpa using hr.symm
  rw [hl', hr'] at hidx
  exact hidx

/-- Claim C9: each applied merge of a present pair strictly decreases the
token-sequence length, which stays at least 1, and the encode loop
terminates within `length ids` iterations (`encodeFuel` with that much fuel
equals the unbounded loop). -/
theorem C9_encode_terminates : ∀ (merges : List (Pair × Nat)) (ids : List Nat)
    (p : Pair) (idx n : Nat),
    ids.length ≤ n → p ∈ ids.zip ids.tail →
    (merge ids p idx).length < ids.length ∧
    1 ≤ (merge ids p idx).length ∧
    encodeFuel merges n ids = encode merges ids := by
  intro merges ids p idx n hn hp
  have hne : ids ≠ [] := by
    intro hc
    subst hc
    simp at hp
  exact ⟨merge_length_lt ids p idx hp, merge_pos ids p idx hne,
    encodeFuel_eq merges n ids hn⟩

/-- Witness for C9 at `ids = [5, 5]`, pair `(5, 5)`. -/
theorem C9_witness :
    (merge [5, 5] (5, 5) 0).length < 2 ∧
    1 ≤ (merge [5, 5] (5, 5) 0).length ∧
    encodeFuel [] 2 [5, 5] = encode [] [5, 5] := by
  have h := C9_encode_terminates [] [5, 5] (5, 5) 0 2 (by decide) (by decide)
  exact h

/-- Claim C10: on an input of fewer than 2 tokens the encode loop returns
the raw byte sequence unchanged, for every merge table (in particular, the
empty input encodes to the empty sequence). -/
theorem C10_short_input : ∀ (merges : List (Pair × Nat)) (bs : List Nat),
    bs.length < 2 → encode merges bs = bs := by
  intro merges bs h
  exact encode_short h

/-- Witness for C10 on a one-byte and the empty input. -/
theorem C10_witness :
    encode [((1, 2), 256)] [65] = [65] ∧ encode [((1, 2), 256)] [] = [] := by
  exact ⟨C10_short_input [((1, 2), 256)] [65] (by decide),
    C10_short_input [((1, 2), 256)] [] (by decide)⟩

end RecipeGen
